/-
  Verification of the structure materializer and JSON editor of
  `generator.py` (Project_Builder).

  The embedding models:
  * JSON-like in-memory structures (`JVal`): Python dicts with string keys,
    strings, `None`, ints, booleans and lists.  Floats are outside the model
    (`num` carries an `Int`), as is Python's ability to hold non-string dict
    keys: the tool's data model is JSON, whose object keys are strings.
  * a filesystem as a partial map from paths to entries.  A path is a list
    of atomic components; the empty path is the (always existing) base root.
    Key strings are treated as opaque single components: degenerate names
    (an empty string, or a string containing a path separator) behave as
    ordinary atoms here, while `pathlib` would resolve them further.
  * `_create` (the inner worker of `ProjectGenerator.create_structure`)
    as a state-passing function returning the new filesystem plus the list
    of `Created directory:` / `Created file:` events it prints, or the
    exception it raises.
-/
import Mathlib

namespace ProjectBuilder

/-! ## The in-memory structure: JSON-like values -/

mutual

inductive JVal where
  | null : JVal
  | bool (b : Bool) : JVal
  | num (n : Int) : JVal
  | str (s : String) : JVal
  | arr (elems : Elems) : JVal
  | obj (fields : Fields) : JVal
deriving DecidableEq

inductive Elems where
  | enil : Elems
  | econs (v : JVal) (rest : Elems) : Elems
deriving DecidableEq

inductive Fields where
  | fnil : Fields
  | fcons (name : String) (v : JVal) (rest : Fields) : Fields
deriving DecidableEq

end

/-- The names of a mapping's fields, in order. -/
def fieldNames : Fields → List String
  | .fnil => []
  | .fcons n _ rest => n :: fieldNames rest

/-- `(name, v)` is one of the mapping's entries. -/
def MemF (name : String) (v : JVal) : Fields → Prop
  | .fnil => False
  | .fcons n w rest => (n = name ∧ w = v) ∨ MemF name v rest

/-- No name occurs twice. -/
def nodupNames : List String → Bool
  | [] => true
  | n :: rest => !(rest.contains n) && nodupNames rest

mutual

/-- Keys are unique in every mapping reachable through nested mappings
    (the data-model invariant; guaranteed for structures parsed from JSON,
    where Python's `json` keeps one binding per key). -/
def wfKeysV : JVal → Bool
  | .obj f => nodupNames (fieldNames f) && wfKeysF f
  | _ => true

def wfKeysF : Fields → Bool
  | .fnil => true
  | .fcons _ v rest => wfKeysV v && wfKeysF rest

end

/-! ## Python `str()` on these values

`_create` writes `str(subcontent)` as file content: the identity on
strings, `repr`-based rendering for everything else.  `repr` of a string
picks single quotes, unless the text holds a single quote and no double
quote; it backslash-escapes the chosen quote and the backslash, writes
`\t`, `\n`, `\r` for those controls, and `\xhh` (lowercase hex) for the
other ASCII controls and for `\x7f`.  This classification is exact for
ASCII text; which non-ASCII characters CPython escapes depends on the
Unicode printability table, which is outside the model — C10 is scoped to
ASCII content by the `asciiV` hypothesis below. -/

/-- A single-quote character (written by code point throughout). -/
def sqc : Char := Char.ofNat 39

def sq : String := String.mk [sqc]

/-- The quote character `repr` picks for a string. -/
def reprQuote (cs : List Char) : Char :=
  if cs.contains sqc && !(cs.contains '"') then '"' else sqc

/-- One character of a `repr`-rendered string literal, `q` the chosen
    quote. -/
def reprChar (q c : Char) : List Char :=
  if c = '\\' then ['\\', '\\']
  else if c = q then ['\\', q]
  else if c = '\t' then ['\\', 't']
  else if c = '\n' then ['\\', 'n']
  else if c = '\r' then ['\\', 'r']
  else if c.toNat < 32 ∨ c.toNat = 127 then
    ['\\', 'x', Nat.digitChar (c.toNat / 16), Nat.digitChar (c.toNat % 16)]
  else [c]

/-- Python `repr` of a string. -/
def reprStr (s : String) : String :=
  String.mk (reprQuote s.toList
    :: (s.toList.bind (reprChar (reprQuote s.toList)) ++ [reprQuote s.toList]))

mutual

/-- Python `repr` of a value (as used by `str` on lists and dicts). -/
def pyRepr : JVal → String
  | .null => "None"
  | .bool true => "True"
  | .bool false => "False"
  | .num n => toString n
  | .str s => reprStr s
  | .arr xs => "[" ++ pyReprE xs ++ "]"
  | .obj f => "\x7b" ++ pyReprF f ++ "\x7d"

def pyReprE : Elems → String
  | .enil => ""
  | .econs v .enil => pyRepr v
  | .econs v rest => pyRepr v ++ ", " ++ pyReprE rest

def pyReprF : Fields → String
  | .fnil => ""
  | .fcons n v .fnil => reprStr n ++ ": " ++ pyRepr v
  | .fcons n v rest => reprStr n ++ ": " ++ pyRepr v ++ ", " ++ pyReprF rest

end

/-- Python `str()`: the identity on strings, `repr`-based elsewhere. -/
def pyStr : JVal → String
  | .str s => s
  | v => pyRepr v

def asciiStr (s : String) : Bool := s.toList.all (fun c => c.toNat < 128)

mutual

/-- Every string reachable in the value is ASCII: the region where the
    model of `repr`'s escaping is exact. -/
def asciiV : JVal → Bool
  | .str s => asciiStr s
  | .arr xs => asciiE xs
  | .obj f => asciiF f
  | _ => true

def asciiE : Elems → Bool
  | .enil => true
  | .econs v rest => asciiV v && asciiE rest

def asciiF : Fields → Bool
  | .fnil => true
  | .fcons n v rest => asciiStr n && (asciiV v && asciiF rest)

end

/-! ## The filesystem model -/

/-- A path relative to the filesystem root: a list of atomic components. -/
abbrev FsPath := List String

inductive Entry where
  | dir : Entry
  | file (content : String) : Entry
deriving DecidableEq

/-- A filesystem: which entry, if any, lives at each path.  The empty path
    is the root directory and holds no explicit entry. -/
abbrev FS := FsPath → Option Entry

/-- `p` names an existing directory (the root always does). -/
def isDir (fs : FS) (p : FsPath) : Bool :=
  p.isEmpty || fs p == some .dir

def setEntry (fs : FS) (p : FsPath) (e : Entry) : FS :=
  fun q => if q = p then some e else fs q

/-- The exceptions the traversal can raise, collapsed to their kind:
    `mkdir` on an existing file (`FileExistsError`), `open(.., 'w')` on a
    directory (`IsADirectoryError`), a missing parent (`FileNotFoundError`
    / `NotADirectoryError`), and `base / content` on a non-path operand
    (`TypeError`). -/
inductive FsError where
  | fileExistsErr : FsError
  | isADirErr : FsError
  | notFoundErr : FsError
  | typeErr : FsError
deriving DecidableEq

/-- One step of `Path.mkdir(exist_ok=True)`: an existing directory is fine,
    an existing file raises, the root needs no creation. -/
def mkdirAt (fs : FS) (p : FsPath) : Except FsError FS :=
  if p.isEmpty then .ok fs
  else
    match fs p with
    | some .dir => .ok fs
    | some (.file _) => .error .fileExistsErr
    | none => .ok (setEntry fs p .dir)

/-- Walk the components of the target, creating each missing ancestor
    (`parents=True`): `done` is the already-walked prefix. -/
def mkdirAlong (fs : FS) (done : FsPath) : List String → Except FsError FS
  | [] => .ok fs
  | c :: rest =>
    match mkdirAt fs (done ++ [c]) with
    | .error e => .error e
    | .ok fs1 => mkdirAlong fs1 (done ++ [c]) rest

/-- `Path.mkdir(parents=True, exist_ok=True)`. -/
def mkdirParents (fs : FS) (p : FsPath) : Except FsError FS :=
  mkdirAlong fs [] p

/-- `open(p, 'w')` followed by a full write: truncates or creates the file,
    refuses a directory target, requires the parent directory. -/
def writeFile (fs : FS) (p : FsPath) (content : String) : Except FsError FS :=
  if isDir fs p then .error .isADirErr
  else if isDir fs p.dropLast then .ok (setEntry fs p (.file content))
  else .error .notFoundErr

/-- `Path.touch()`: an existing entry (file or directory) is left as it is,
    otherwise an empty file appears under an existing parent. -/
def touch (fs : FS) (p : FsPath) : Except FsError FS :=
  if p.isEmpty then .ok fs
  else
    match fs p with
    | some _ => .ok fs
    | none =>
      if isDir fs p.dropLast then .ok (setEntry fs p (.file ""))
      else .error .notFoundErr

/-! ## The materializer (`_create` inside `create_structure`)

The result carries the log of `Created directory:` (`true`) and
`Created file:` (`false`) lines the source prints, in print order. -/

abbrev CreateLog := List (Bool × FsPath)

mutual

def _create (fs : FS) (base : FsPath) : JVal → Except FsError (FS × CreateLog)
  | .obj fields => createFields fs base fields
  | .null => .ok (fs, [])
  | .str s =>
    -- `elif content is not None:` root-level file: `path.touch()`
    match touch fs (base ++ [s]) with
    | .error e => .error e
    | .ok fs1 => .ok (fs1, [(false, base ++ [s])])
  -- `base / content` raises `TypeError` unless `content` is a string
  | .num _ => .error .typeErr
  | .bool _ => .error .typeErr
  | .arr _ => .error .typeErr

def createFields (fs : FS) (base : FsPath) : Fields → Except FsError (FS × CreateLog)
  | .fnil => .ok (fs, [])
  | .fcons name sub rest =>
    match sub with
    | .obj _ | .null =>
      -- `path.mkdir(parents=True, exist_ok=True)` then recurse into `sub`
      match mkdirParents fs (base ++ [name]) with
      | .error e => .error e
      | .ok fs1 =>
        match _create fs1 (base ++ [name]) sub with
        | .error e => .error e
        | .ok (fs2, l2) =>
          match createFields fs2 base rest with
          | .error e => .error e
          | .ok (fs3, l3) => .ok (fs3, (true, base ++ [name]) :: (l2 ++ l3))
    | v =>
      -- `open(path, 'w').write(str(subcontent))`
      match writeFile fs (base ++ [name]) (pyStr v) with
      | .error e => .error e
      | .ok fs1 =>
        match createFields fs1 base rest with
        | .error e => .error e
        | .ok (fs3, l3) => .ok (fs3, (false, base ++ [name]) :: l3)

end

/-- `ProjectGenerator.create_structure(base_dir, structure)`; the Python
    parameter `structure` is a Lean keyword, hence `struct`. -/
def create_structure (fs : FS) (base_dir : FsPath) (struct : JVal) :
    Except FsError (FS × CreateLog) :=
  _create fs base_dir struct

/-- The filesystem with nothing but the root directory. -/
def emptyFS : FS := fun _ => none

theorem create_structure_sample_file :
    create_structure emptyFS [] (.obj (.fcons "a" (.str "hi") .fnil))
      = .ok (setEntry emptyFS ["a"] (.file "hi"), [(false, ["a"])]) := rfl

theorem create_structure_sample_nested :
    create_structure emptyFS []
        (.obj (.fcons "a" (.obj (.fcons "f" (.str "x") .fnil)) .fnil))
      = .ok (setEntry (setEntry emptyFS ["a"] .dir) ["a", "f"] (.file "x"),
             [(true, ["a"]), (false, ["a", "f"])]) := rfl

theorem create_structure_sample_num_err : create_structure emptyFS [] (.num 5) = .error .typeErr := rfl

theorem pyStr_sample_list : pyStr (.arr (.econs (.str "q") .enil)) = "[" ++ sq ++ "q" ++ sq ++ "]" := rfl

theorem pyStr_sample_bool : pyStr (.bool true) = "True" := rfl

/-! ## Path and primitive lemmas -/

/-- Every path of the chain up to `p` (including `p` and the root) is a
    directory: `p` exists as a directory reachable from the root. -/
def ChainDirs (fs : FS) (p : FsPath) : Prop :=
  ∀ q, q <+: p → isDir fs q = true

/-- Nothing exists strictly below `p`. -/
def FreshUnder (fs : FS) (p : FsPath) : Prop :=
  ∀ q, p <+: q → q ≠ p → fs q = none

/-- Nothing exists at or below `b ++ [n]` for any of the names `ns`. -/
def FreshForNames (fs : FS) (b : FsPath) (ns : List String) : Prop :=
  ∀ n ∈ ns, ∀ q, (b ++ [n]) <+: q → fs q = none

theorem setEntry_self (fs : FS) (p : FsPath) (e : Entry) : setEntry fs p e p = some e := by
  simp [setEntry]

theorem setEntry_ne (fs : FS) (p : FsPath) (e : Entry) {q : FsPath} (h : q ≠ p) :
    setEntry fs p e q = fs q := by
  simp [setEntry, h]

theorem setEntry_of_present {fs : FS} {p : FsPath} {e : Entry} (h : fs p = some e) :
    setEntry fs p e = fs := by
  funext q
  by_cases hq : q = p
  · subst hq; simp [setEntry, h]
  · simp [setEntry, hq]

theorem isDir_iff {fs : FS} {p : FsPath} : isDir fs p = true ↔ p = [] ∨ fs p = some .dir := by
  simp [isDir, List.isEmpty_iff]

theorem isDir_nil (fs : FS) : isDir fs [] = true := by
  simp [isDir]

theorem isDir_of_entry {fs fs' : FS} {p : FsPath}
    (hkeep : ∀ e, fs p = some e → fs' p = some e) (h : isDir fs p = true) :
    isDir fs' p = true := by
  rcases isDir_iff.mp h with h0 | h0
  · exact isDir_iff.mpr (Or.inl h0)
  · exact isDir_iff.mpr (Or.inr (hkeep _ h0))

theorem snoc_ne_self (l : FsPath) (a : String) : l ++ [a] ≠ l := by simp

theorem dropLast_snoc (l : FsPath) (a : String) : (l ++ [a]).dropLast = l := by simp

/-- A prefix of `l ++ [a]` is a prefix of `l` or the whole list. -/
theorem prefix_snoc_iff {q l : FsPath} {a : String} :
    q <+: l ++ [a] ↔ q <+: l ∨ q = l ++ [a] := by
  constructor
  · intro h
    by_cases hlen : q.length ≤ l.length
    · exact Or.inl (List.prefix_of_prefix_length_le h (List.prefix_append l [a]) hlen)
    · refine Or.inr (List.IsPrefix.eq_of_length h ?_)
      have := h.length_le
      simp only [List.length_append, List.length_singleton] at this ⊢
      omega
  · rintro (h | rfl)
    · exact h.trans (List.prefix_append l [a])
    · exact List.prefix_rfl

theorem snoc_prefix_snoc {b : FsPath} {x y : String} {t : List String}
    (h : b ++ [x] <+: b ++ y :: t) : x = y := by
  rw [List.prefix_append_right_inj] at h
  exact (List.cons_prefix_cons.mp h).1

/-! ### `mkdirAt` -/

theorem mkdirAt_ok {fs fs' : FS} {p : FsPath} (h : mkdirAt fs p = .ok fs') :
    (fs' = fs ∧ (p = [] ∨ fs p = some .dir)) ∨
      (p ≠ [] ∧ fs p = none ∧ fs' = setEntry fs p .dir) := by
  unfold mkdirAt at h
  split at h
  · rename_i hemp
    cases h
    exact Or.inl ⟨rfl, Or.inl (List.isEmpty_iff.mp hemp)⟩
  · rename_i hne
    split at h
    · cases h; exact Or.inl ⟨rfl, Or.inr (by assumption)⟩
    · cases h
    · cases h
      exact Or.inr ⟨by simpa [List.isEmpty_iff] using hne, by assumption, rfl⟩

theorem mkdirAt_of_dir {fs : FS} {p : FsPath} (h : isDir fs p = true) :
    mkdirAt fs p = .ok fs := by
  rcases isDir_iff.mp h with h0 | h0
  · subst h0; rfl
  · unfold mkdirAt
    by_cases hp : p = []
    · simp [hp]
    · simp [List.isEmpty_iff, hp, h0]

theorem mkdirAt_of_none {fs : FS} {p : FsPath} (hne : p ≠ []) (h : fs p = none) :
    mkdirAt fs p = .ok (setEntry fs p .dir) := by
  unfold mkdirAt
  simp [List.isEmpty_iff, hne, h]

theorem mkdirAt_entries {fs fs' : FS} {p : FsPath} (h : mkdirAt fs p = .ok fs')
    {q : FsPath} {e : Entry} (hq : fs q = some e) : fs' q = some e := by
  rcases mkdirAt_ok h with ⟨rfl, _⟩ | ⟨_, hnone, aeq⟩
  · exact hq
  · subst aeq
    by_cases hqp : q = p
    · subst hqp; rw [hq] at hnone; cases hnone
    · rw [setEntry_ne _ _ _ hqp]; exact hq

theorem mkdirAt_frame {fs fs' : FS} {p : FsPath} (h : mkdirAt fs p = .ok fs')
    {q : FsPath} (hq : q ≠ p) : fs' q = fs q := by
  rcases mkdirAt_ok h with ⟨rfl, _⟩ | ⟨_, _, aeq⟩
  · rfl
  · subst aeq; exact setEntry_ne _ _ _ hq

theorem mkdirAt_isDir {fs fs' : FS} {p : FsPath} (h : mkdirAt fs p = .ok fs') :
    isDir fs' p = true := by
  rcases mkdirAt_ok h with ⟨rfl, hd⟩ | ⟨_, _, aeq⟩
  · exact isDir_iff.mpr hd
  · subst aeq; exact isDir_iff.mpr (Or.inr (setEntry_self _ _ _))

theorem mkdirAt_isDir_persist {fs fs' : FS} {p q : FsPath} (h : mkdirAt fs p = .ok fs')
    (hq : isDir fs q = true) : isDir fs' q = true :=
  isDir_of_entry (fun _ he => mkdirAt_entries h he) hq

/-! ### `mkdirAlong` and `mkdirParents` -/

theorem mkdirAlong_entries {todo : List String} :
    ∀ {fs fs' : FS} {done : FsPath}, mkdirAlong fs done todo = .ok fs' →
      ∀ {q : FsPath} {e : Entry}, fs q = some e → fs' q = some e := by
  induction todo with
  | nil => intro fs fs' done h q e hq; cases h; exact hq
  | cons c rest ih =>
    intro fs fs' done h q e hq
    unfold mkdirAlong at h
    split at h
    · cases h
    · rename_i fs1 h1
      exact ih h (mkdirAt_entries h1 hq)

theorem mkdirAlong_isDir_persist {todo : List String} :
    ∀ {fs fs' : FS} {done : FsPath}, mkdirAlong fs done todo = .ok fs' →
      ∀ {q : FsPath}, isDir fs q = true → isDir fs' q = true := by
  intro fs fs' done h q hq
  exact isDir_of_entry (fun _ he => mkdirAlong_entries h he) hq

/-- `mkdirAlong` touches only paths that extend `done` by a nonempty prefix
    of `todo`. -/
theorem mkdirAlong_frame {todo : List String} :
    ∀ {fs fs' : FS} {done : FsPath}, mkdirAlong fs done todo = .ok fs' →
      ∀ {q : FsPath}, (∀ t, t <+: todo → t ≠ [] → q ≠ done ++ t) → fs' q = fs q := by
  induction todo with
  | nil => intro fs fs' done h q _; cases h; rfl
  | cons c rest ih =>
    intro fs fs' done h q hq
    unfold mkdirAlong at h
    split at h
    · cases h
    · rename_i fs1 h1
      have hq1 : q ≠ done ++ [c] := hq [c] (by simp) (by simp)
      have hrest : ∀ t, t <+: rest → t ≠ [] → q ≠ (done ++ [c]) ++ t := by
        intro t ht htne
        have := hq (c :: t) (List.cons_prefix_cons.mpr ⟨rfl, ht⟩) (by simp)
        simpa [List.append_assoc] using this
      rw [ih h hrest, mkdirAt_frame h1 hq1]

theorem mkdirAlong_frame_not_ext {fs fs' : FS} {done : FsPath} {todo : List String}
    (h : mkdirAlong fs done todo = .ok fs') {q : FsPath} (hq : ¬ done <+: q) :
    fs' q = fs q := by
  refine mkdirAlong_frame h ?_
  rintro t _ _ rfl
  exact hq (List.prefix_append done t)

theorem mkdirAlong_frame_not_pre {fs fs' : FS} {done : FsPath} {todo : List String}
    (h : mkdirAlong fs done todo = .ok fs') {q : FsPath} (hq : ¬ q <+: done ++ todo) :
    fs' q = fs q := by
  refine mkdirAlong_frame h ?_
  rintro t ht _ rfl
  exact hq ((List.prefix_append_right_inj done).mpr ht)

theorem mkdirAlong_chain {todo : List String} :
    ∀ {fs fs' : FS} {done : FsPath}, mkdirAlong fs done todo = .ok fs' →
      ChainDirs fs done → ChainDirs fs' (done ++ todo) := by
  induction todo with
  | nil => intro fs fs' done h hch; cases h; simpa using hch
  | cons c rest ih =>
    intro fs fs' done h hch
    unfold mkdirAlong at h
    split at h
    · cases h
    · rename_i fs1 h1
      have hch1 : ChainDirs fs1 (done ++ [c]) := by
        intro q hq
        rcases prefix_snoc_iff.mp hq with hq0 | rfl
        · exact mkdirAt_isDir_persist h1 (hch q hq0)
        · exact mkdirAt_isDir h1
      have := ih h hch1
      simpa [List.append_assoc] using this

theorem mkdirAlong_noop {todo : List String} :
    ∀ {fs : FS} {done : FsPath}, ChainDirs fs (done ++ todo) →
      mkdirAlong fs done todo = .ok fs := by
  induction todo with
  | nil => intro fs done _; rfl
  | cons c rest ih =>
    intro fs done hch
    have hd : isDir fs (done ++ [c]) = true := by
      refine hch (done ++ [c]) ?_
      rw [show done ++ c :: rest = (done ++ [c]) ++ rest by simp]
      exact List.prefix_append _ _
    unfold mkdirAlong
    rw [mkdirAt_of_dir hd]
    exact ih (by simpa [List.append_assoc] using hch)

theorem mkdirAlong_append {t1 t2 : List String} :
    ∀ {fs : FS} {done : FsPath},
      mkdirAlong fs done (t1 ++ t2) =
        match mkdirAlong fs done t1 with
        | .error e => .error e
        | .ok fs1 => mkdirAlong fs1 (done ++ t1) t2 := by
  induction t1 with
  | nil => intro fs done; simp [mkdirAlong]
  | cons c rest ih =>
    intro fs done
    have step : mkdirAlong fs done (c :: (rest ++ t2)) =
        match mkdirAt fs (done ++ [c]) with
        | .error e => .error e
        | .ok fs1 => mkdirAlong fs1 (done ++ [c]) (rest ++ t2) := rfl
    have step2 : mkdirAlong fs done (c :: rest) =
        match mkdirAt fs (done ++ [c]) with
        | .error e => .error e
        | .ok fs1 => mkdirAlong fs1 (done ++ [c]) rest := rfl
    show mkdirAlong fs done (c :: (rest ++ t2)) = _
    rw [step, step2]
    cases mkdirAt fs (done ++ [c]) with
    | error e => rfl
    | ok fs1 =>
      dsimp only
      rw [ih]
      simp only [List.append_assoc, List.singleton_append]

theorem mkdirParents_entries {fs fs' : FS} {p : FsPath} (h : mkdirParents fs p = .ok fs')
    {q : FsPath} {e : Entry} (hq : fs q = some e) : fs' q = some e :=
  mkdirAlong_entries h hq

theorem mkdirParents_isDir_persist {fs fs' : FS} {p q : FsPath}
    (h : mkdirParents fs p = .ok fs') (hq : isDir fs q = true) : isDir fs' q = true :=
  mkdirAlong_isDir_persist h hq

theorem mkdirParents_frame {fs fs' : FS} {p : FsPath} (h : mkdirParents fs p = .ok fs')
    {q : FsPath} (hq : ¬ q <+: p) : fs' q = fs q :=
  mkdirAlong_frame_not_pre h (by simpa using hq)

theorem mkdirParents_chain {fs fs' : FS} {p : FsPath} (h : mkdirParents fs p = .ok fs') :
    ChainDirs fs' p := by
  have : ChainDirs fs [] := by
    intro q hq
    rw [List.prefix_nil.mp hq]
    exact isDir_nil fs
  simpa using mkdirAlong_chain h this

theorem mkdirParents_noop {fs : FS} {p : FsPath} (hch : ChainDirs fs p) :
    mkdirParents fs p = .ok fs :=
  mkdirAlong_noop (by simpa using hch)

/-- Under an existing chain of directories for `b`, creating `b ++ [name]`
    with `parents=True` is just the final `mkdir`. -/
theorem mkdirParents_eq_mkdirAt {fs : FS} {b : FsPath} {name : String}
    (hch : ChainDirs fs b) : mkdirParents fs (b ++ [name]) = mkdirAt fs (b ++ [name]) := by
  unfold mkdirParents
  rw [mkdirAlong_append, mkdirAlong_noop (by simpa using hch)]
  show mkdirAlong fs ([] ++ b) [name] = _
  unfold mkdirAlong
  simp only [List.nil_append]
  split
  · rename_i e he
    rw [he]
  · rename_i fs1 he
    rw [he]
    rfl

/-! ### `writeFile` and `touch` -/

theorem writeFile_ok {fs fs' : FS} {p : FsPath} {c : String}
    (h : writeFile fs p c = .ok fs') :
    isDir fs p = false ∧ isDir fs p.dropLast = true ∧ fs' = setEntry fs p (.file c) := by
  unfold writeFile at h
  split at h
  · cases h
  · rename_i hnd
    split at h
    · rename_i hpar
      cases h
      refine ⟨by simpa using hnd, hpar, rfl⟩
    · cases h

theorem writeFile_of {fs : FS} {p : FsPath} {c : String}
    (hnd : isDir fs p = false) (hpar : isDir fs p.dropLast = true) :
    writeFile fs p c = .ok (setEntry fs p (.file c)) := by
  unfold writeFile
  simp [hnd, hpar]

theorem touch_ok {fs fs' : FS} {p : FsPath} (h : touch fs p = .ok fs') :
    (fs' = fs ∧ (p = [] ∨ ∃ e, fs p = some e)) ∨
      (p ≠ [] ∧ fs p = none ∧ isDir fs p.dropLast = true ∧
        fs' = setEntry fs p (.file "")) := by
  unfold touch at h
  split at h
  · rename_i hemp
    cases h
    exact Or.inl ⟨rfl, Or.inl (List.isEmpty_iff.mp hemp)⟩
  · rename_i hemp
    split at h
    · rename_i e he
      cases h
      exact Or.inl ⟨rfl, Or.inr ⟨e, he⟩⟩
    · rename_i hnone
      split at h
      · cases h
        exact Or.inr ⟨by simpa [List.isEmpty_iff] using hemp, hnone, by assumption, rfl⟩
      · cases h

theorem touch_of_present {fs : FS} {p : FsPath} {e : Entry}
    (hne : p ≠ []) (h : fs p = some e) : touch fs p = .ok fs := by
  unfold touch
  simp [List.isEmpty_iff, hne, h]

theorem touch_of_none {fs : FS} {p : FsPath}
    (hne : p ≠ []) (h : fs p = none) (hpar : isDir fs p.dropLast = true) :
    touch fs p = .ok (setEntry fs p (.file "")) := by
  unfold touch
  simp [List.isEmpty_iff, hne, h, hpar]

/-! ### Step shape of the traversal -/

/-- The type dispatch of `_create`'s dict branch: values going through the
    `mkdir`-and-recurse arm (`isinstance(subcontent, dict) or subcontent is
    None`). -/
def dirKind : JVal → Bool
  | .obj _ => true
  | .null => true
  | _ => false

theorem create_obj_eq (fs : FS) (b : FsPath) (f : Fields) :
    _create fs b (.obj f) = createFields fs b f := rfl

theorem create_null_eq (fs : FS) (b : FsPath) : _create fs b .null = .ok (fs, []) := rfl

theorem create_str_ok {fs fs' : FS} {b : FsPath} {s : String} {l : CreateLog}
    (h : _create fs b (.str s) = .ok (fs', l)) :
    touch fs (b ++ [s]) = .ok fs' ∧ l = [(false, b ++ [s])] := by
  simp only [_create] at h
  split at h
  · cases h
  · rename_i fs1 htouch
    cases h
    exact ⟨htouch, rfl⟩

theorem create_str_of {fs fs' : FS} {b : FsPath} {s : String}
    (h : touch fs (b ++ [s]) = .ok fs') :
    _create fs b (.str s) = .ok (fs', [(false, b ++ [s])]) := by
  simp only [_create, h]

/-- If `_create` succeeds then the value is a mapping, `None`, or a string
    (a bare number, boolean or list raises `TypeError` at the root). -/
theorem create_ok_kind {fs fs' : FS} {b : FsPath} {v : JVal} {l : CreateLog}
    (h : _create fs b v = .ok (fs', l)) :
    (∃ f, v = .obj f) ∨ v = .null ∨ ∃ s, v = .str s := by
  cases v with
  | obj f => exact Or.inl ⟨f, rfl⟩
  | null => exact Or.inr (Or.inl rfl)
  | str s => exact Or.inr (Or.inr ⟨s, rfl⟩)
  | num n => cases h
  | bool b0 => cases h
  | arr xs => cases h

/-- A directory-kind field step is the `mkdir`-recurse-continue pipeline. -/
theorem createFields_cons_eq_dir {fs : FS} {b : FsPath} {name : String} {sub : JVal}
    {rest : Fields} (hk : dirKind sub = true) :
    createFields fs b (.fcons name sub rest) =
      match mkdirParents fs (b ++ [name]) with
      | .error e => .error e
      | .ok fs1 =>
        match _create fs1 (b ++ [name]) sub with
        | .error e => .error e
        | .ok (fs2, l2) =>
          match createFields fs2 b rest with
          | .error e => .error e
          | .ok (fs3, l3) => .ok (fs3, (true, b ++ [name]) :: (l2 ++ l3)) := by
  cases sub <;> first | rfl | cases hk

/-- A file-kind field step is the write-continue pipeline. -/
theorem createFields_cons_eq_file {fs : FS} {b : FsPath} {name : String} {sub : JVal}
    {rest : Fields} (hk : dirKind sub = false) :
    createFields fs b (.fcons name sub rest) =
      match writeFile fs (b ++ [name]) (pyStr sub) with
      | .error e => .error e
      | .ok fs1 =>
        match createFields fs1 b rest with
        | .error e => .error e
        | .ok (fs3, l3) => .ok (fs3, (false, b ++ [name]) :: l3) := by
  cases sub <;> first | rfl | cases hk

/-- Decomposition of one successful field step. -/
theorem createFields_cons_ok {fs fs' : FS} {b : FsPath} {name : String} {sub : JVal}
    {rest : Fields} {l : CreateLog}
    (h : createFields fs b (.fcons name sub rest) = .ok (fs', l)) :
    (dirKind sub = true ∧
      ∃ fs1 fs2 l2 l3, mkdirParents fs (b ++ [name]) = .ok fs1 ∧
        _create fs1 (b ++ [name]) sub = .ok (fs2, l2) ∧
        createFields fs2 b rest = .ok (fs', l3) ∧
        l = (true, b ++ [name]) :: (l2 ++ l3)) ∨
    (dirKind sub = false ∧
      ∃ fs1 l3, writeFile fs (b ++ [name]) (pyStr sub) = .ok fs1 ∧
        createFields fs1 b rest = .ok (fs', l3) ∧
        l = (false, b ++ [name]) :: l3) := by
  cases hdk : dirKind sub with
  | true =>
    left
    refine ⟨rfl, ?_⟩
    rw [createFields_cons_eq_dir hdk] at h
    cases hm : mkdirParents fs (b ++ [name]) with
    | error e => rw [hm] at h; cases h
    | ok fs1 =>
      rw [hm] at h
      dsimp only at h
      cases hc : _create fs1 (b ++ [name]) sub with
      | error e => rw [hc] at h; cases h
      | ok pr2 =>
        obtain ⟨fs2, l2⟩ := pr2
        rw [hc] at h
        dsimp only at h
        cases hr : createFields fs2 b rest with
        | error e => rw [hr] at h; cases h
        | ok pr3 =>
          obtain ⟨fs3, l3⟩ := pr3
          rw [hr] at h
          dsimp only at h
          cases h
          exact ⟨fs1, fs2, l2, l3, rfl, hc, hr, rfl⟩
  | false =>
    right
    refine ⟨rfl, ?_⟩
    rw [createFields_cons_eq_file hdk] at h
    cases hw : writeFile fs (b ++ [name]) (pyStr sub) with
    | error e => rw [hw] at h; cases h
    | ok fs1 =>
      rw [hw] at h
      dsimp only at h
      cases hr : createFields fs1 b rest with
      | error e => rw [hr] at h; cases h
      | ok pr3 =>
        obtain ⟨fs3, l3⟩ := pr3
        rw [hr] at h
        dsimp only at h
        cases h
        exact ⟨fs1, l3, rfl, hr, rfl⟩

/-- Builder for a successful directory-kind field step. -/
theorem createFields_cons_dir {fs fs1 fs2 fs3 : FS} {b : FsPath} {name : String}
    {sub : JVal} {rest : Fields} {l2 l3 : CreateLog} (hk : dirKind sub = true)
    (h1 : mkdirParents fs (b ++ [name]) = .ok fs1)
    (h2 : _create fs1 (b ++ [name]) sub = .ok (fs2, l2))
    (h3 : createFields fs2 b rest = .ok (fs3, l3)) :
    createFields fs b (.fcons name sub rest) = .ok (fs3, (true, b ++ [name]) :: (l2 ++ l3)) := by
  rw [createFields_cons_eq_dir hk, h1]
  dsimp only
  rw [h2]
  dsimp only
  rw [h3]

/-- Builder for a successful file-kind field step. -/
theorem createFields_cons_file {fs fs1 fs3 : FS} {b : FsPath} {name : String}
    {sub : JVal} {rest : Fields} {l3 : CreateLog} (hk : dirKind sub = false)
    (h1 : writeFile fs (b ++ [name]) (pyStr sub) = .ok fs1)
    (h3 : createFields fs1 b rest = .ok (fs3, l3)) :
    createFields fs b (.fcons name sub rest) = .ok (fs3, (false, b ++ [name]) :: l3) := by
  rw [createFields_cons_eq_file hk, h1]
  dsimp only
  rw [h3]

/-! ### Frame and persistence lemmas for the traversal -/

theorem isDir_eq_of {fs fs' : FS} {q : FsPath} (h : fs' q = fs q) :
    isDir fs' q = isDir fs q := by
  unfold isDir
  rw [h]

theorem touch_keep {fs fs' : FS} {p : FsPath} (h : touch fs p = .ok fs')
    {q : FsPath} {e : Entry} (hq : fs q = some e) : fs' q = some e := by
  rcases touch_ok h with ⟨rfl, -⟩ | ⟨hne, hnone, hpar, rfl⟩
  · exact hq
  · by_cases hqp : q = p
    · subst hqp; rw [hq] at hnone; cases hnone
    · rw [setEntry_ne _ _ _ hqp]; exact hq

theorem touch_isDir_persist {fs fs' : FS} {p : FsPath} (h : touch fs p = .ok fs')
    {q : FsPath} (hq : isDir fs q = true) : isDir fs' q = true :=
  isDir_of_entry (fun _ he => touch_keep h he) hq

theorem touch_frame {fs fs' : FS} {p : FsPath} (h : touch fs p = .ok fs')
    {q : FsPath} (hqp : q ≠ p) : fs' q = fs q := by
  rcases touch_ok h with ⟨rfl, -⟩ | ⟨-, -, -, rfl⟩
  · rfl
  · exact setEntry_ne _ _ _ hqp

theorem writeFile_keep {fs fs' : FS} {p : FsPath} {c : String}
    (h : writeFile fs p c = .ok fs') {q : FsPath} {e : Entry}
    (hq : fs q = some e) (hqp : q ≠ p) : fs' q = some e := by
  obtain ⟨-, -, rfl⟩ := writeFile_ok h
  rw [setEntry_ne _ _ _ hqp]; exact hq

theorem writeFile_frame {fs fs' : FS} {p : FsPath} {c : String}
    (h : writeFile fs p c = .ok fs') {q : FsPath} (hqp : q ≠ p) : fs' q = fs q := by
  obtain ⟨-, -, rfl⟩ := writeFile_ok h
  exact setEntry_ne _ _ _ hqp

theorem writeFile_isDir_persist {fs fs' : FS} {p : FsPath} {c : String}
    (h : writeFile fs p c = .ok fs') {q : FsPath} (hq : isDir fs q = true) :
    isDir fs' q = true := by
  obtain ⟨hnd, -, rfl⟩ := writeFile_ok h
  by_cases hqp : q = p
  · subst hqp; rw [hq] at hnd; cases hnd
  · rw [isDir_eq_of (setEntry_ne _ _ _ hqp)]; exact hq

mutual

/-- Directories present before a successful traversal are still present. -/
theorem create_isDir_persist {fs fs' : FS} {b : FsPath} (v : JVal) {l : CreateLog}
    (h : _create fs b v = .ok (fs', l)) {q : FsPath} (hq : isDir fs q = true) :
    isDir fs' q = true := by
  cases v with
  | obj f => exact createFields_isDir_persist f h hq
  | null => cases h; exact hq
  | str s =>
    obtain ⟨ht, -⟩ := create_str_ok h
    exact touch_isDir_persist ht hq
  | num n => cases h
  | bool b0 => cases h
  | arr xs => cases h

theorem createFields_isDir_persist {fs fs' : FS} {b : FsPath} (f : Fields) {l : CreateLog}
    (h : createFields fs b f = .ok (fs', l)) {q : FsPath} (hq : isDir fs q = true) :
    isDir fs' q = true := by
  cases f with
  | fnil => cases h; exact hq
  | fcons name sub rest =>
    rcases createFields_cons_ok h with
      ⟨hk, fs1, fs2, l2, l3, h1, h2, h3, -⟩ | ⟨hk, fs1, l3, h1, h3, -⟩
    · exact createFields_isDir_persist rest h3
        (create_isDir_persist sub h2 (mkdirParents_isDir_persist h1 hq))
    · exact createFields_isDir_persist rest h3 (writeFile_isDir_persist h1 hq)

end

mutual

/-- An entry outside the strict cone below `b` survives the traversal. -/
theorem create_keep {fs fs' : FS} {b : FsPath} (v : JVal) {l : CreateLog}
    (h : _create fs b v = .ok (fs', l)) {q : FsPath} {e : Entry}
    (hq : fs q = some e) (hout : ¬ (b <+: q ∧ q ≠ b)) : fs' q = some e := by
  cases v with
  | obj f =>
    refine createFields_keep f h hq ?_
    intro n _ hpre
    refine hout ⟨(List.prefix_append b [n]).trans hpre, ?_⟩
    rintro rfl
    have := hpre.length_le
    simp at this
  | null => cases h; exact hq
  | str s =>
    obtain ⟨ht, -⟩ := create_str_ok h
    exact touch_keep ht hq
  | num n => cases h
  | bool b0 => cases h
  | arr xs => cases h

/-- An entry outside all the fields' cones survives processing the fields. -/
theorem createFields_keep {fs fs' : FS} {b : FsPath} (f : Fields) {l : CreateLog}
    (h : createFields fs b f = .ok (fs', l)) {q : FsPath} {e : Entry}
    (hq : fs q = some e) (hout : ∀ n ∈ fieldNames f, ¬ (b ++ [n]) <+: q) :
    fs' q = some e := by
  cases f with
  | fnil => cases h; exact hq
  | fcons name sub rest =>
    have hname : ¬ (b ++ [name]) <+: q := hout name (by simp [fieldNames])
    have houtr : ∀ n ∈ fieldNames rest, ¬ (b ++ [n]) <+: q := by
      intro n hn
      exact hout n (by simp [fieldNames, hn])
    rcases createFields_cons_ok h with
      ⟨hk, fs1, fs2, l2, l3, h1, h2, h3, -⟩ | ⟨hk, fs1, l3, h1, h3, -⟩
    · have k1 : fs1 q = some e := mkdirParents_entries h1 hq
      have k2 : fs2 q = some e := create_keep sub h2 k1 (fun hp => hname hp.1)
      exact createFields_keep rest h3 k2 houtr
    · have k1 : fs1 q = some e :=
        writeFile_keep h1 hq (fun hq0 => hname (hq0 ▸ List.prefix_rfl))
      exact createFields_keep rest h3 k1 houtr

end

mutual

/-- Paths incomparable with `b` are untouched by the traversal. -/
theorem create_frame {fs fs' : FS} {b : FsPath} (v : JVal) {l : CreateLog}
    (h : _create fs b v = .ok (fs', l)) {q : FsPath}
    (h1 : ¬ q <+: b) (h2 : ¬ b <+: q) : fs' q = fs q := by
  cases v with
  | obj f =>
    refine createFields_frame f h ?_
    intro n _
    constructor
    · intro hpre
      rcases prefix_snoc_iff.mp hpre with hp | rfl
      · exact h1 hp
      · exact h2 (List.prefix_append b [n])
    · intro hpre
      exact h2 ((List.prefix_append b [n]).trans hpre)
  | null => cases h; rfl
  | str s =>
    obtain ⟨ht, -⟩ := create_str_ok h
    refine touch_frame ht ?_
    rintro rfl
    exact h2 (List.prefix_append b [s])
  | num n => cases h
  | bool b0 => cases h
  | arr xs => cases h

theorem createFields_frame {fs fs' : FS} {b : FsPath} (f : Fields) {l : CreateLog}
    (h : createFields fs b f = .ok (fs', l)) {q : FsPath}
    (hout : ∀ n ∈ fieldNames f, ¬ q <+: (b ++ [n]) ∧ ¬ (b ++ [n]) <+: q) :
    fs' q = fs q := by
  cases f with
  | fnil => cases h; rfl
  | fcons name sub rest =>
    have hname := hout name (by simp [fieldNames])
    have houtr : ∀ n ∈ fieldNames rest, ¬ q <+: (b ++ [n]) ∧ ¬ (b ++ [n]) <+: q := by
      intro n hn
      exact hout n (by simp [fieldNames, hn])
    rcases createFields_cons_ok h with
      ⟨hk, fs1, fs2, l2, l3, h1, h2, h3, -⟩ | ⟨hk, fs1, l3, h1, h3, -⟩
    · have k1 : fs1 q = fs q := mkdirParents_frame h1 hname.1
      have k2 : fs2 q = fs1 q := create_frame sub h2 hname.1 hname.2
      have k3 : fs' q = fs2 q := createFields_frame rest h3 houtr
      rw [k3, k2, k1]
    · have k1 : fs1 q = fs q :=
        writeFile_frame h1 (fun hq0 => hname.2 (hq0 ▸ List.prefix_rfl))
      have k3 : fs' q = fs1 q := createFields_frame rest h3 houtr
      rw [k3, k1]

end

/-! ### The traversal's print log is a function of the structure alone -/

mutual

/-- The `Created ...` lines a successful run of `_create` prints. -/
def logOfV (b : FsPath) : JVal → CreateLog
  | .obj f => logOfF b f
  | .str s => [(false, b ++ [s])]
  | _ => []

def logOfF (b : FsPath) : Fields → CreateLog
  | .fnil => []
  | .fcons name sub rest =>
    if dirKind sub then
      (true, b ++ [name]) :: (logOfV (b ++ [name]) sub ++ logOfF b rest)
    else
      (false, b ++ [name]) :: logOfF b rest

end

mutual

theorem create_log {fs fs' : FS} {b : FsPath} (v : JVal) {l : CreateLog}
    (h : _create fs b v = .ok (fs', l)) : l = logOfV b v := by
  cases v with
  | obj f => exact createFields_log f h
  | null => cases h; rfl
  | str s =>
    obtain ⟨-, rfl⟩ := create_str_ok h
    rfl
  | num n => cases h
  | bool b0 => cases h
  | arr xs => cases h

theorem createFields_log {fs fs' : FS} {b : FsPath} (f : Fields) {l : CreateLog}
    (h : createFields fs b f = .ok (fs', l)) : l = logOfF b f := by
  cases f with
  | fnil => cases h; rfl
  | fcons name sub rest =>
    rcases createFields_cons_ok h with
      ⟨hk, fs1, fs2, l2, l3, h1, h2, h3, rfl⟩ | ⟨hk, fs1, l3, h1, h3, rfl⟩
    · rw [createFields_log rest h3, create_log sub h2]
      simp [logOfF, hk]
    · rw [createFields_log rest h3]
      simp [logOfF, hk]

end

/-! ### Key paths -/

mutual

/-- For each key of the nested mapping, the key sequence from the root of
    the mapping to that key. -/
def keyPathsV : JVal → List FsPath
  | .obj f => keyPathsF f
  | _ => []

def keyPathsF : Fields → List FsPath
  | .fnil => []
  | .fcons name sub rest =>
    ([name] :: (keyPathsV sub).map (fun p => name :: p)) ++ keyPathsF rest

end

theorem keyPathsV_of_not_dir {v : JVal} (h : dirKind v = false) : keyPathsV v = [] := by
  cases v <;> first | rfl | cases h

theorem snoc_prefix_comm {b : FsPath} {x y : String} {q : FsPath}
    (h1 : b ++ [x] <+: q) (h2 : b ++ [y] <+: q) : x = y := by
  have hle : (b ++ [x]).length ≤ (b ++ [y]).length := by simp
  exact snoc_prefix_snoc (List.prefix_of_prefix_length_le h1 h2 hle)

theorem ne_base_of_snoc_pref {b : FsPath} {n : String} {q : FsPath}
    (hq : b ++ [n] <+: q) : q ≠ b := by
  rintro rfl
  have := hq.length_le
  simp at this

theorem not_prefix_snoc_of {b : FsPath} {n x : String} {q : FsPath}
    (hq : b ++ [n] <+: q) (hne : n ≠ x) : ¬ q <+: b ++ [x] :=
  fun hx => hne (snoc_prefix_snoc (hq.trans hx))

theorem not_snoc_prefix_of {b : FsPath} {n x : String} {q : FsPath}
    (hq : b ++ [n] <+: q) (hne : n ≠ x) : ¬ (b ++ [x]) <+: q :=
  fun hx => hne (snoc_prefix_comm hq hx)

theorem ne_snoc_of {b : FsPath} {n x : String} {q : FsPath}
    (hq : b ++ [n] <+: q) (hne : n ≠ x) : q ≠ b ++ [x] := by
  rintro rfl
  exact hne (snoc_prefix_snoc hq)

theorem nodupNames_cons {name : String} {ns : List String} :
    nodupNames (name :: ns) = true ↔ name ∉ ns ∧ nodupNames ns = true := by
  simp [nodupNames]

theorem wfKeysF_cons {name : String} {sub : JVal} {rest : Fields} :
    wfKeysF (.fcons name sub rest) = true ↔ wfKeysV sub = true ∧ wfKeysF rest = true := by
  simp [wfKeysF]

theorem wfKeysV_obj {f : Fields} :
    wfKeysV (.obj f) = true ↔ nodupNames (fieldNames f) = true ∧ wfKeysF f = true := by
  simp [wfKeysV]

/-! ### The log's paths are exactly the key paths -/

mutual

theorem logOfV_paths (b : FsPath) (v : JVal) (hk : dirKind v = true) :
    (logOfV b v).map Prod.snd = (keyPathsV v).map (fun kp => b ++ kp) := by
  cases v with
  | obj f => exact logOfF_paths b f
  | null => rfl
  | str s => cases hk
  | num n => cases hk
  | bool b0 => cases hk
  | arr xs => cases hk

theorem logOfF_paths (b : FsPath) (f : Fields) :
    (logOfF b f).map Prod.snd = (keyPathsF f).map (fun kp => b ++ kp) := by
  cases f with
  | fnil => rfl
  | fcons name sub rest =>
    cases hdk : dirKind sub with
    | true =>
      have hsub := logOfV_paths (b ++ [name]) sub hdk
      have hrest := logOfF_paths b rest
      simp only [logOfF, hdk, if_true, keyPathsF, List.map_cons, List.map_append,
        List.cons_append, List.map_map]
      rw [hsub, hrest]
      simp [Function.comp_def]
    | false =>
      have hrest := logOfF_paths b rest
      simp only [logOfF, hdk, keyPathsF, keyPathsV_of_not_dir hdk, List.map_nil,
        List.nil_append, List.map_cons, List.map_append, Bool.false_eq_true, if_false]
      rw [hrest]
      simp

end

/-- Every key path starts with one of the mapping's field names. -/
theorem keyPathsF_head : ∀ (f : Fields), ∀ p ∈ keyPathsF f, ∃ n t, p = n :: t ∧ n ∈ fieldNames f
  | .fnil => by intro p hp; cases hp
  | .fcons name sub rest => by
    intro p hp
    simp only [keyPathsF, List.cons_append, List.mem_cons, List.mem_append,
      List.mem_map] at hp
    rcases hp with rfl | ⟨q, -, rfl⟩ | hp
    · exact ⟨name, [], rfl, by simp [fieldNames]⟩
    · exact ⟨name, q, rfl, by simp [fieldNames]⟩
    · obtain ⟨n, t, rfl, hn⟩ := keyPathsF_head rest p hp
      exact ⟨n, t, rfl, by simp [fieldNames, hn]⟩

theorem keyPathsV_ne_nil (v : JVal) : ∀ p ∈ keyPathsV v, p ≠ [] := by
  cases v with
  | obj f =>
    intro p hp
    obtain ⟨n, t, rfl, -⟩ := keyPathsF_head f p hp
    simp
  | null => intro p hp; cases hp
  | str s => intro p hp; cases hp
  | num n => intro p hp; cases hp
  | bool b0 => intro p hp; cases hp
  | arr xs => intro p hp; cases hp

mutual

theorem keyPathsV_nodup (v : JVal) (h : wfKeysV v = true) : (keyPathsV v).Nodup := by
  cases v with
  | obj f =>
    obtain ⟨hn, hw⟩ := wfKeysV_obj.mp h
    exact keyPathsF_nodup f hn hw
  | null => exact List.nodup_nil
  | str s => exact List.nodup_nil
  | num n => exact List.nodup_nil
  | bool b0 => exact List.nodup_nil
  | arr xs => exact List.nodup_nil

theorem keyPathsF_nodup (f : Fields) (hn : nodupNames (fieldNames f) = true)
    (hw : wfKeysF f = true) : (keyPathsF f).Nodup := by
  cases f with
  | fnil => exact List.nodup_nil
  | fcons name sub rest =>
    rw [show fieldNames (.fcons name sub rest) = name :: fieldNames rest from rfl] at hn
    obtain ⟨hnin, hnrest⟩ := nodupNames_cons.mp hn
    obtain ⟨hwsub, hwrest⟩ := wfKeysF_cons.mp hw
    have hsub : (keyPathsV sub).Nodup := keyPathsV_nodup sub hwsub
    have hrest : (keyPathsF rest).Nodup := keyPathsF_nodup rest hnrest hwrest
    show (([name] :: (keyPathsV sub).map (fun p => name :: p)) ++ keyPathsF rest).Nodup
    rw [List.nodup_append]
    refine ⟨?_, hrest, ?_⟩
    · rw [List.nodup_cons]
      refine ⟨?_, hsub.map ?_⟩
      · intro hmem
        obtain ⟨q, hq, hq2⟩ := List.mem_map.mp hmem
        have : q = [] := by simpa using hq2.symm
        exact keyPathsV_ne_nil sub q hq this
      · intro a b hab
        simpa using hab
    · intro p hp hp2
      obtain ⟨n2, t2, rfl, hn2⟩ := keyPathsF_head rest _ hp2
      rcases List.mem_cons.mp hp with heq | hmem
      · injection heq with h1 h2
        subst h1
        exact hnin hn2
      · obtain ⟨q, -, hq2⟩ := List.mem_map.mp hmem
        injection hq2 with h1 h2
        subst h1
        exact hnin hn2

end

/-! ### Success of the traversal on a fresh base -/

theorem chainDirs_isDir {fs : FS} {b : FsPath} (hch : ChainDirs fs b) : isDir fs b = true :=
  hch b List.prefix_rfl

theorem freshForNames_of_freshUnder {fs : FS} {b : FsPath} (hfr : FreshUnder fs b)
    (ns : List String) : FreshForNames fs b ns := by
  intro n _ q hq
  exact hfr q ((List.prefix_append b [n]).trans hq) (ne_base_of_snoc_pref hq)

mutual

/-- On a base directory with an existing chain and a fresh subtree, a
    well-keyed mapping (or `None`, or a string) materializes without error. -/
theorem create_success (v : JVal) {fs : FS} {b : FsPath}
    (hcr : dirKind v = true ∨ ∃ s, v = .str s)
    (hw : wfKeysV v = true) (hch : ChainDirs fs b) (hfr : FreshUnder fs b) :
    ∃ fs' l, _create fs b v = .ok (fs', l) := by
  cases v with
  | obj f =>
    obtain ⟨hn, hwf⟩ := wfKeysV_obj.mp hw
    obtain ⟨fs', l, h⟩ :=
      createFields_success f hn hwf hch (freshForNames_of_freshUnder hfr _)
    exact ⟨fs', l, h⟩
  | null => exact ⟨fs, [], rfl⟩
  | str s =>
    have hfresh : fs (b ++ [s]) = none :=
      hfr _ (List.prefix_append b [s]) (snoc_ne_self b s)
    have hpar : isDir fs (b ++ [s]).dropLast = true := by
      rw [dropLast_snoc]
      exact chainDirs_isDir hch
    exact ⟨_, _, create_str_of (touch_of_none (by simp) hfresh hpar)⟩
  | num n => rcases hcr with h | ⟨s, h⟩ <;> cases h
  | bool b0 => rcases hcr with h | ⟨s, h⟩ <;> cases h
  | arr xs => rcases hcr with h | ⟨s, h⟩ <;> cases h

theorem createFields_success (f : Fields) {fs : FS} {b : FsPath}
    (hn : nodupNames (fieldNames f) = true) (hw : wfKeysF f = true)
    (hch : ChainDirs fs b) (hffn : FreshForNames fs b (fieldNames f)) :
    ∃ fs' l, createFields fs b f = .ok (fs', l) := by
  cases f with
  | fnil => exact ⟨fs, [], rfl⟩
  | fcons name sub rest =>
    rw [show fieldNames (.fcons name sub rest) = name :: fieldNames rest from rfl] at hn hffn
    obtain ⟨hnin, hnrest⟩ := nodupNames_cons.mp hn
    obtain ⟨hwsub, hwrest⟩ := wfKeysF_cons.mp hw
    have hfresh_t : fs (b ++ [name]) = none :=
      hffn name (by simp) _ List.prefix_rfl
    cases hdk : dirKind sub with
    | true =>
      have hm : mkdirParents fs (b ++ [name]) = .ok (setEntry fs (b ++ [name]) .dir) := by
        rw [mkdirParents_eq_mkdirAt hch]
        exact mkdirAt_of_none (by simp) hfresh_t
      have hch1 : ChainDirs (setEntry fs (b ++ [name]) .dir) (b ++ [name]) :=
        mkdirParents_chain hm
      have hfr1 : FreshUnder (setEntry fs (b ++ [name]) .dir) (b ++ [name]) := by
        intro q hq hne
        rw [setEntry_ne _ _ _ hne]
        exact hffn name (by simp) q hq
      obtain ⟨fs2, l2, h2⟩ := create_success sub (Or.inl hdk) hwsub hch1 hfr1
      have hch2 : ChainDirs fs2 b := by
        intro q hq
        refine create_isDir_persist sub h2 ?_
        refine mkdirParents_isDir_persist hm ?_
        exact hch q hq
      have hffn2 : FreshForNames fs2 b (fieldNames rest) := by
        intro n hn2 q hq
        have hne_n : n ≠ name := fun heq => hnin (heq ▸ hn2)
        have k2 : fs2 q = setEntry fs (b ++ [name]) .dir q :=
          create_frame sub h2 (not_prefix_snoc_of hq hne_n) (not_snoc_prefix_of hq hne_n)
        rw [k2, setEntry_ne _ _ _ (ne_snoc_of hq hne_n)]
        exact hffn n (by simp [hn2]) q hq
      obtain ⟨fs3, l3, h3⟩ := createFields_success rest hnrest hwrest hch2 hffn2
      exact ⟨fs3, _, createFields_cons_dir hdk hm h2 h3⟩
    | false =>
      have hwr : writeFile fs (b ++ [name]) (pyStr sub)
          = .ok (setEntry fs (b ++ [name]) (.file (pyStr sub))) := by
        refine writeFile_of ?_ ?_
        · simp [isDir, hfresh_t]
        · rw [dropLast_snoc]
          exact chainDirs_isDir hch
      have hch2 : ChainDirs (setEntry fs (b ++ [name]) (.file (pyStr sub))) b := by
        intro q hq
        have hne : q ≠ b ++ [name] := by
          intro heq
          have := hq.length_le
          rw [heq] at this
          simp at this
        rw [isDir_eq_of (setEntry_ne _ _ _ hne)]
        exact hch q hq
      have hffn2 : FreshForNames (setEntry fs (b ++ [name]) (.file (pyStr sub))) b
          (fieldNames rest) := by
        intro n hn2 q hq
        have hne_n : n ≠ name := fun heq => hnin (heq ▸ hn2)
        rw [setEntry_ne _ _ _ (ne_snoc_of hq hne_n)]
        exact hffn n (by simp [hn2]) q hq
      obtain ⟨fs3, l3, h3⟩ := createFields_success rest hnrest hwrest hch2 hffn2
      exact ⟨fs3, _, createFields_cons_file hdk hwr h3⟩

end

/-! ### Doneness: all effects of a structure are already present -/

mutual

/-- Every filesystem effect of materializing `v` at `b` is already present
    in `fs`, so a re-run is a no-op. -/
def DoneV (fs : FS) (b : FsPath) : JVal → Prop
  | .obj f => DoneF fs b f
  | .null => True
  | .str s => fs (b ++ [s]) ≠ none
  | _ => False

def DoneF (fs : FS) (b : FsPath) : Fields → Prop
  | .fnil => True
  | .fcons name sub rest =>
    (if dirKind sub then
      ChainDirs fs (b ++ [name]) ∧ DoneV fs (b ++ [name]) sub
    else
      fs (b ++ [name]) = some (.file (pyStr sub)) ∧ isDir fs b = true)
    ∧ DoneF fs b rest

end

mutual

/-- Doneness survives any change that keeps directories and keeps entries
    at or below the base. -/
theorem doneV_mono (v : JVal) {fs fs' : FS} {p : FsPath}
    (hdirs : ∀ q, isDir fs q = true → isDir fs' q = true)
    (hkeep : ∀ q e, p <+: q → fs q = some e → fs' q = some e)
    (hd : DoneV fs p v) : DoneV fs' p v := by
  cases v with
  | obj f => exact doneF_mono f hdirs hkeep hd
  | null => trivial
  | str s =>
    show fs' (p ++ [s]) ≠ none
    have hd' : fs (p ++ [s]) ≠ none := hd
    rcases hopt : fs (p ++ [s]) with - | e
    · exact absurd hopt hd'
    · rw [hkeep _ e (List.prefix_append p [s]) hopt]
      simp
  | num n => cases hd
  | bool b0 => cases hd
  | arr xs => cases hd

theorem doneF_mono (f : Fields) {fs fs' : FS} {p : FsPath}
    (hdirs : ∀ q, isDir fs q = true → isDir fs' q = true)
    (hkeep : ∀ q e, p <+: q → fs q = some e → fs' q = some e)
    (hd : DoneF fs p f) : DoneF fs' p f := by
  cases f with
  | fnil => trivial
  | fcons name sub rest =>
    obtain ⟨hhead, hrest⟩ := hd
    refine ⟨?_, doneF_mono rest hdirs hkeep hrest⟩
    cases hdk : dirKind sub with
    | true =>
      simp only [hdk, if_true] at hhead ⊢
      obtain ⟨hch, hdsub⟩ := hhead
      refine ⟨fun q hq => hdirs q (hch q hq), ?_⟩
      refine doneV_mono sub hdirs ?_ hdsub
      intro q e hq hfs
      exact hkeep q e ((List.prefix_append p [name]).trans hq) hfs
    | false =>
      simp only [hdk, Bool.false_eq_true, if_false] at hhead ⊢
      obtain ⟨hfile, hpar⟩ := hhead
      exact ⟨hkeep _ _ (List.prefix_append p [name]) hfile, hdirs _ hpar⟩

end

mutual

/-- Re-running the traversal on a filesystem where its work is done
    changes nothing and prints the same log. -/
theorem create_replay (v : JVal) {fs : FS} {b : FsPath} (hd : DoneV fs b v) :
    _create fs b v = .ok (fs, logOfV b v) := by
  cases v with
  | obj f => exact createFields_replay f hd
  | null => rfl
  | str s =>
    have hd' : fs (b ++ [s]) ≠ none := hd
    rcases hopt : fs (b ++ [s]) with - | e
    · exact absurd hopt hd'
    · exact create_str_of (touch_of_present (by simp) hopt)
  | num n => cases hd
  | bool b0 => cases hd
  | arr xs => cases hd

theorem createFields_replay (f : Fields) {fs : FS} {b : FsPath} (hd : DoneF fs b f) :
    createFields fs b f = .ok (fs, logOfF b f) := by
  cases f with
  | fnil => rfl
  | fcons name sub rest =>
    obtain ⟨hhead, hrest⟩ := hd
    cases hdk : dirKind sub with
    | true =>
      simp only [hdk, if_true] at hhead
      obtain ⟨hch, hdsub⟩ := hhead
      have hstep := createFields_cons_dir hdk (mkdirParents_noop hch)
        (create_replay sub hdsub) (createFields_replay rest hrest)
      rw [hstep]
      simp [logOfF, hdk]
    | false =>
      simp only [hdk, Bool.false_eq_true, if_false] at hhead
      obtain ⟨hfile, hpar⟩ := hhead
      have hw : writeFile fs (b ++ [name]) (pyStr sub) = .ok fs := by
        have hbase := @writeFile_of fs (b ++ [name]) (pyStr sub)
          (by simp [isDir, hfile]) (by rw [dropLast_snoc]; exact hpar)
        rw [setEntry_of_present hfile] at hbase
        exact hbase
      have hstep := createFields_cons_file hdk hw (createFields_replay rest hrest)
      rw [hstep]
      simp [logOfF, hdk]

end

mutual

/-- After a successful run on a well-keyed structure, its work is done. -/
theorem create_establish (v : JVal) {fs fs' : FS} {b : FsPath} {l : CreateLog}
    (hw : wfKeysV v = true) (h : _create fs b v = .ok (fs', l)) : DoneV fs' b v := by
  cases v with
  | obj f =>
    obtain ⟨hn, hwf⟩ := wfKeysV_obj.mp hw
    exact createFields_establish f hn hwf h
  | null => cases h; trivial
  | str s =>
    obtain ⟨ht, -⟩ := create_str_ok h
    show fs' (b ++ [s]) ≠ none
    rcases touch_ok ht with ⟨rfl, hcase⟩ | ⟨-, -, -, rfl⟩
    · rcases hcase with habs | ⟨e, he⟩
      · simp at habs
      · rw [he]; simp
    · rw [setEntry_self]; simp
  | num n => cases h
  | bool b0 => cases h
  | arr xs => cases h

theorem createFields_establish (f : Fields) {fs fs' : FS} {b : FsPath} {l : CreateLog}
    (hn : nodupNames (fieldNames f) = true) (hw : wfKeysF f = true)
    (h : createFields fs b f = .ok (fs', l)) : DoneF fs' b f := by
  cases f with
  | fnil => cases h; trivial
  | fcons name sub rest =>
    rw [show fieldNames (.fcons name sub rest) = name :: fieldNames rest from rfl] at hn
    obtain ⟨hnin, hnrest⟩ := nodupNames_cons.mp hn
    obtain ⟨hwsub, hwrest⟩ := wfKeysF_cons.mp hw
    rcases createFields_cons_ok h with
      ⟨hdk, fs1, fs2, l2, l3, h1, h2, h3, -⟩ | ⟨hdk, fs1, l3, h1, h3, -⟩
    · have hdirs3 : ∀ q, isDir fs2 q = true → isDir fs' q = true :=
        fun q hq => createFields_isDir_persist rest h3 hq
      have hkeep3 : ∀ q e, (b ++ [name]) <+: q → fs2 q = some e → fs' q = some e := by
        intro q e hq hfs
        refine createFields_keep rest h3 hfs ?_
        intro n2 hn2
        exact not_snoc_prefix_of hq (fun heq => hnin (heq ▸ hn2))
      refine ⟨?_, createFields_establish rest hnrest hwrest h3⟩
      simp only [hdk, if_true]
      have hch2 : ChainDirs fs2 (b ++ [name]) :=
        fun q hq => create_isDir_persist sub h2 ((mkdirParents_chain h1) q hq)
      exact ⟨fun q hq => hdirs3 q (hch2 q hq),
        doneV_mono sub hdirs3 hkeep3 (create_establish sub hwsub h2)⟩
    · obtain ⟨hnd, hpar, rfl⟩ := writeFile_ok h1
      refine ⟨?_, createFields_establish rest hnrest hwrest h3⟩
      simp only [hdk, Bool.false_eq_true, if_false]
      constructor
      · refine createFields_keep rest h3 (setEntry_self _ _ _) ?_
        intro n2 hn2
        exact not_snoc_prefix_of List.prefix_rfl (fun heq => hnin (heq ▸ hn2))
      · refine createFields_isDir_persist rest h3 ?_
        rw [isDir_eq_of (setEntry_ne _ _ _ (Ne.symm (snoc_ne_self b name)))]
        rw [dropLast_snoc] at hpar
        exact hpar

end

mutual

/-- Doneness puts an actual entry at every key path. -/
theorem doneV_entries (v : JVal) {fs : FS} {b : FsPath} (hd : DoneV fs b v) :
    ∀ kp ∈ keyPathsV v, fs (b ++ kp) ≠ none := by
  cases v with
  | obj f => exact doneF_entries f hd
  | null => intro kp hkp; cases hkp
  | str s => intro kp hkp; cases hkp
  | num n => intro kp hkp; cases hkp
  | bool b0 => intro kp hkp; cases hkp
  | arr xs => intro kp hkp; cases hkp

theorem doneF_entries (f : Fields) {fs : FS} {b : FsPath} (hd : DoneF fs b f) :
    ∀ kp ∈ keyPathsF f, fs (b ++ kp) ≠ none := by
  cases f with
  | fnil => intro kp hkp; cases hkp
  | fcons name sub rest =>
    obtain ⟨hhead, hrest⟩ := hd
    intro kp hkp
    simp only [keyPathsF, List.cons_append, List.mem_cons, List.mem_append,
      List.mem_map] at hkp
    rcases hkp with rfl | ⟨q, hq, rfl⟩ | hkp
    · cases hdk : dirKind sub with
      | true =>
        simp only [hdk, if_true] at hhead
        have := chainDirs_isDir hhead.1
        rcases isDir_iff.mp this with habs | hdir
        · simp at habs
        · rw [hdir]; simp
      | false =>
        simp only [hdk, Bool.false_eq_true, if_false] at hhead
        rw [hhead.1]; simp
    · cases hdk : dirKind sub with
      | true =>
        simp only [hdk, if_true] at hhead
        have := doneV_entries sub hhead.2 q hq
        rw [show b ++ (name :: q) = (b ++ [name]) ++ q by simp]
        exact this
      | false =>
        rw [keyPathsV_of_not_dir hdk] at hq
        cases hq
    · exact doneF_entries rest hrest kp hkp

end

/-! ### Per-member results of a successful run -/

theorem memF_name {name : String} {sub : JVal} :
    ∀ {f : Fields}, MemF name sub f → name ∈ fieldNames f
  | .fnil, h => absurd h id
  | .fcons n w rest, h => by
    rcases h with ⟨rfl, -⟩ | h'
    · simp [fieldNames]
    · simp [fieldNames, memF_name h']

/-- A file-kind member ends up as a file holding `str(sub)`, whatever was
    there before. -/
theorem createFields_member_file : ∀ (f : Fields) {fs fs' : FS} {b : FsPath}
    {l : CreateLog} {name : String} {sub : JVal},
    MemF name sub f → dirKind sub = false →
    nodupNames (fieldNames f) = true →
    createFields fs b f = .ok (fs', l) →
    fs' (b ++ [name]) = some (.file (pyStr sub))
  | .fnil, _, _, _, _, _, _, hmem, _, _, _ => absurd hmem id
  | .fcons n2 sub2 rest, fs, fs', b, l, name, sub, hmem, hdk, hn, h => by
    rw [show fieldNames (.fcons n2 sub2 rest) = n2 :: fieldNames rest from rfl] at hn
    obtain ⟨hnin, hnrest⟩ := nodupNames_cons.mp hn
    rcases hmem with ⟨rfl, rfl⟩ | hmem'
    · rcases createFields_cons_ok h with
        ⟨hdk2, fs1, fs2, l2, l3, h1, h2, h3, -⟩ | ⟨hdk2, fs1, l3, h1, h3, -⟩
      · rw [hdk] at hdk2; cases hdk2
      · obtain ⟨-, -, rfl⟩ := writeFile_ok h1
        refine createFields_keep rest h3 (setEntry_self _ _ _) ?_
        intro n3 hn3
        exact not_snoc_prefix_of List.prefix_rfl (fun heq => hnin (heq ▸ hn3))
    · rcases createFields_cons_ok h with
        ⟨hdk2, fs1, fs2, l2, l3, h1, h2, h3, -⟩ | ⟨hdk2, fs1, l3, h1, h3, -⟩
      · exact createFields_member_file rest hmem' hdk hnrest h3
      · exact createFields_member_file rest hmem' hdk hnrest h3

/-- A directory-kind member ends up as a directory. -/
theorem createFields_member_dir : ∀ (f : Fields) {fs fs' : FS} {b : FsPath}
    {l : CreateLog} {name : String} {sub : JVal},
    MemF name sub f → dirKind sub = true →
    nodupNames (fieldNames f) = true →
    createFields fs b f = .ok (fs', l) →
    fs' (b ++ [name]) = some .dir
  | .fnil, _, _, _, _, _, _, hmem, _, _, _ => absurd hmem id
  | .fcons n2 sub2 rest, fs, fs', b, l, name, sub, hmem, hdk, hn, h => by
    rw [show fieldNames (.fcons n2 sub2 rest) = n2 :: fieldNames rest from rfl] at hn
    obtain ⟨hnin, hnrest⟩ := nodupNames_cons.mp hn
    rcases hmem with ⟨rfl, rfl⟩ | hmem'
    · rcases createFields_cons_ok h with
        ⟨hdk2, fs1, fs2, l2, l3, h1, h2, h3, -⟩ | ⟨hdk2, fs1, l3, h1, h3, -⟩
      · have hd1 : fs1 (b ++ [n2]) = some .dir := by
          rcases isDir_iff.mp (chainDirs_isDir (mkdirParents_chain h1)) with habs | hdir
          · simp at habs
          · exact hdir
        have hd2 : fs2 (b ++ [n2]) = some .dir := by
          refine create_keep sub2 h2 hd1 ?_
          rintro ⟨-, hne⟩
          exact hne rfl
        refine createFields_keep rest h3 hd2 ?_
        intro n3 hn3
        exact not_snoc_prefix_of List.prefix_rfl (fun heq => hnin (heq ▸ hn3))
      · rw [hdk] at hdk2; cases hdk2
    · rcases createFields_cons_ok h with
        ⟨hdk2, fs1, fs2, l2, l3, h1, h2, h3, -⟩ | ⟨hdk2, fs1, l3, h1, h3, -⟩
      · exact createFields_member_dir rest hmem' hdk hnrest h3
      · exact createFields_member_dir rest hmem' hdk hnrest h3

/-- Below a member that is `None` or an empty mapping, nothing changes:
    the directory created for it stays empty (apart from what was there). -/
theorem createFields_member_empty : ∀ (f : Fields) {fs fs' : FS} {b : FsPath}
    {l : CreateLog} {name : String} {sub : JVal},
    MemF name sub f → (sub = .null ∨ sub = .obj .fnil) →
    nodupNames (fieldNames f) = true →
    createFields fs b f = .ok (fs', l) →
    ∀ q, (b ++ [name]) <+: q → q ≠ b ++ [name] → fs' q = fs q
  | .fnil, _, _, _, _, _, _, hmem, _, _, _ => absurd hmem id
  | .fcons n2 sub2 rest, fs, fs', b, l, name, sub, hmem, hempty, hn, h => by
    rw [show fieldNames (.fcons n2 sub2 rest) = n2 :: fieldNames rest from rfl] at hn
    obtain ⟨hnin, hnrest⟩ := nodupNames_cons.mp hn
    intro q hq hne
    have hnotpre : ¬ q <+: b ++ [name] := by
      intro hq2
      refine hne (hq2.eq_of_length ?_)
      have h1 := hq.length_le
      have h2 := hq2.length_le
      omega
    rcases hmem with ⟨rfl, rfl⟩ | hmem'
    · rcases createFields_cons_ok h with
        ⟨hdk2, fs1, fs2, l2, l3, h1, h2, h3, -⟩ | ⟨hdk2, fs1, l3, h1, h3, -⟩
      · have k3 : fs' q = fs2 q := by
          refine createFields_frame rest h3 ?_
          intro n3 hn3
          have hne3 : n2 ≠ n3 := fun heq => hnin (heq ▸ hn3)
          exact ⟨not_prefix_snoc_of hq hne3, not_snoc_prefix_of hq hne3⟩
        have k2 : fs2 q = fs1 q := by
          rcases hempty with rfl | rfl
          · cases h2; rfl
          · cases h2; rfl
        have k1 : fs1 q = fs q := mkdirParents_frame h1 hnotpre
        rw [k3, k2, k1]
      · rcases hempty with rfl | rfl <;> cases hdk2
    · have hnamein : name ∈ fieldNames rest := memF_name hmem'
      have hne2 : name ≠ n2 := by
        rintro rfl
        exact hnin hnamein
      rcases createFields_cons_ok h with
        ⟨hdk2, fs1, fs2, l2, l3, h1, h2, h3, -⟩ | ⟨hdk2, fs1, l3, h1, h3, -⟩
      · have k3 : fs' q = fs2 q :=
          createFields_member_empty rest hmem' hempty hnrest h3 q hq hne
        have k2 : fs2 q = fs1 q :=
          create_frame sub2 h2 (not_prefix_snoc_of hq hne2) (not_snoc_prefix_of hq hne2)
        have k1 : fs1 q = fs q := mkdirParents_frame h1 (not_prefix_snoc_of hq hne2)
        rw [k3, k2, k1]
      · have k3 : fs' q = fs1 q :=
          createFields_member_empty rest hmem' hempty hnrest h3 q hq hne
        have k1 : fs1 q = fs q := writeFile_frame h1 (ne_snoc_of hq hne2)
        rw [k3, k1]

/-! ### Parent-before-child order of the creation log -/

/-- Each logged creation happens inside a directory that is the base or was
    logged as created earlier; `dirs` accumulates the directories known to
    exist. -/
def logOk (dirs : List FsPath) : CreateLog → Prop
  | [] => True
  | (isd, p) :: rest =>
    p.dropLast ∈ dirs ∧ logOk (if isd then p :: dirs else dirs) rest

def dirsAfter (dirs : List FsPath) : CreateLog → List FsPath
  | [] => dirs
  | (isd, p) :: rest => dirsAfter (if isd then p :: dirs else dirs) rest

theorem logOk_append {l1 l2 : CreateLog} :
    ∀ {dirs : List FsPath}, logOk dirs l1 → logOk (dirsAfter dirs l1) l2 →
      logOk dirs (l1 ++ l2) := by
  induction l1 with
  | nil => intro dirs _ h2; exact h2
  | cons hd tl ih =>
    intro dirs h1 h2
    obtain ⟨isd, p⟩ := hd
    exact ⟨h1.1, ih h1.2 h2⟩

theorem subset_dirsAfter {l : CreateLog} :
    ∀ {dirs : List FsPath}, dirs ⊆ dirsAfter dirs l := by
  induction l with
  | nil => intro dirs; exact List.Subset.refl dirs
  | cons hd tl ih =>
    intro dirs
    obtain ⟨isd, p⟩ := hd
    refine List.Subset.trans ?_ ih
    cases isd
    · exact List.Subset.refl dirs
    · exact List.subset_cons_self p dirs

mutual

theorem logOfV_parents (v : JVal) (b : FsPath) (dirs : List FsPath) (hb : b ∈ dirs) :
    logOk dirs (logOfV b v) := by
  cases v with
  | obj f => exact logOfF_parents f b dirs hb
  | null => trivial
  | str s => exact ⟨by rw [dropLast_snoc]; exact hb, trivial⟩
  | num n => trivial
  | bool b0 => trivial
  | arr xs => trivial

theorem logOfF_parents (f : Fields) (b : FsPath) (dirs : List FsPath) (hb : b ∈ dirs) :
    logOk dirs (logOfF b f) := by
  cases f with
  | fnil => trivial
  | fcons name sub rest =>
    cases hdk : dirKind sub with
    | true =>
      simp only [logOfF, hdk, if_true]
      refine ⟨by rw [dropLast_snoc]; exact hb, ?_⟩
      refine logOk_append (logOfV_parents sub (b ++ [name]) _ (by simp)) ?_
      refine logOfF_parents rest b _ ?_
      exact subset_dirsAfter (List.mem_cons_of_mem _ hb)
    | false =>
      simp only [logOfF, hdk, Bool.false_eq_true, if_false]
      exact ⟨by rw [dropLast_snoc]; exact hb, logOfF_parents rest b dirs hb⟩

end

/-! ## Claim theorems for the materializer -/

/-- **C1**: materializing a nested mapping (unique keys per mapping) against
    an existing, fresh base directory succeeds and creates exactly one
    filesystem entry per key: the creation log lists, in traversal order and
    without repetition, exactly the paths `b ++ kp` for the key paths `kp`
    of the mapping, and each such path holds an entry afterwards. -/
theorem claim1_one_entry_per_key (fs : FS) (b : FsPath) (f : Fields)
    (hw : wfKeysV (.obj f) = true) (hch : ChainDirs fs b) (hfr : FreshUnder fs b) :
    ∃ fs' l, create_structure fs b (.obj f) = .ok (fs', l) ∧
      l.map Prod.snd = (keyPathsV (.obj f)).map (fun kp => b ++ kp) ∧
      (l.map Prod.snd).Nodup ∧
      ∀ kp ∈ keyPathsV (.obj f), fs' (b ++ kp) ≠ none := by
  obtain ⟨fs', l, h⟩ := create_success (.obj f) (Or.inl rfl) hw hch hfr
  have hlog := create_log (.obj f) h
  refine ⟨fs', l, h, ?_, ?_, ?_⟩
  · rw [hlog]
    exact logOfV_paths b (.obj f) rfl
  · rw [hlog, logOfV_paths b (.obj f) rfl]
    refine (keyPathsV_nodup (.obj f) hw).map ?_
    intro p q hpq
    simpa using hpq
  · exact doneV_entries (.obj f) (create_establish (.obj f) hw h)

def w1f : Fields :=
  .fcons "a" (.obj (.fcons "b.txt" (.str "hi") (.fcons "c" (.obj .fnil) .fnil))) .fnil

theorem claim1_one_entry_per_key_witness :
    wfKeysV (.obj w1f) = true ∧
    ∃ fs' l, create_structure emptyFS [] (.obj w1f) = .ok (fs', l) ∧
      l.map Prod.snd = (keyPathsV (.obj w1f)).map (fun kp => [] ++ kp) ∧
      (l.map Prod.snd).Nodup ∧
      ∀ kp ∈ keyPathsV (.obj w1f), fs' ([] ++ kp) ≠ none :=
  ⟨by decide, claim1_one_entry_per_key emptyFS [] w1f (by decide)
    (fun q hq => by rw [List.prefix_nil.mp hq]; exact isDir_nil _)
    (fun q _ _ => rfl)⟩

/-- **C2**: a string-valued member becomes a file at `baseDir/name` whose
    entire content is that string, verbatim; any previous entry at that path
    is replaced (created if absent, truncated and rewritten if present). -/
theorem claim2_verbatim_file_content (fs fs' : FS) (b : FsPath) (f : Fields)
    (l : CreateLog) (name s : String)
    (hmem : MemF name (.str s) f)
    (hn : nodupNames (fieldNames f) = true)
    (h : create_structure fs b (.obj f) = .ok (fs', l)) :
    fs' (b ++ [name]) = some (.file s) :=
  createFields_member_file f hmem rfl hn h

def w2fs : FS := setEntry emptyFS ["a"] (.file "old")

theorem claim2_verbatim_file_content_witness :
    MemF "a" (.str "hi") (.fcons "a" (.str "hi") .fnil) ∧
    nodupNames (fieldNames (.fcons "a" (.str "hi") .fnil)) = true ∧
    create_structure w2fs [] (.obj (.fcons "a" (.str "hi") .fnil))
      = .ok (setEntry w2fs ["a"] (.file "hi"), [(false, ["a"])]) ∧
    setEntry w2fs ["a"] (.file "hi") ([] ++ ["a"]) = some (.file "hi") :=
  ⟨Or.inl ⟨rfl, rfl⟩, by decide, rfl,
    claim2_verbatim_file_content w2fs (setEntry w2fs ["a"] (.file "hi")) []
      (.fcons "a" (.str "hi") .fnil) [(false, ["a"])] "a" "hi"
      (Or.inl ⟨rfl, rfl⟩) (by decide) rfl⟩

/-- **C3**: a member whose value is a mapping or `None` ends up as a
    directory at `baseDir/name` (also when that directory already existed),
    and a `None` or empty-mapping member leaves everything strictly below
    that directory exactly as it was: an empty leaf yields an empty
    directory, never a file. -/
theorem claim3_member_directory (fs fs' : FS) (b : FsPath) (f : Fields)
    (l : CreateLog) (name : String) (sub : JVal)
    (hmem : MemF name sub f) (hdk : dirKind sub = true)
    (hn : nodupNames (fieldNames f) = true)
    (h : create_structure fs b (.obj f) = .ok (fs', l)) :
    fs' (b ++ [name]) = some .dir ∧
      ((sub = .null ∨ sub = .obj .fnil) →
        ∀ q, (b ++ [name]) <+: q → q ≠ b ++ [name] → fs' q = fs q) :=
  ⟨createFields_member_dir f hmem hdk hn h,
   fun hempty => createFields_member_empty f hmem hempty hn h⟩

def w3fs : FS := setEntry emptyFS ["d"] .dir

theorem claim3_member_directory_witness :
    MemF "d" .null (.fcons "d" .null .fnil) ∧
    dirKind JVal.null = true ∧
    nodupNames (fieldNames (.fcons "d" .null .fnil)) = true ∧
    create_structure w3fs [] (.obj (.fcons "d" .null .fnil))
      = .ok (w3fs, [(true, ["d"])]) ∧
    (w3fs ([] ++ ["d"]) = some .dir ∧
      ((JVal.null = .null ∨ JVal.null = .obj .fnil) →
        ∀ q, ([] ++ ["d"] : FsPath) <+: q → q ≠ [] ++ ["d"] → w3fs q = w3fs q)) :=
  ⟨Or.inl ⟨rfl, rfl⟩, rfl, by decide, rfl,
    claim3_member_directory w3fs w3fs [] (.fcons "d" .null .fnil) [(true, ["d"])]
      "d" .null (Or.inl ⟨rfl, rfl⟩) rfl (by decide) rfl⟩

/-- **C4**: a second run of the materializer over the same structure and
    base is a no-op: it succeeds (existing directories do not error),
    returns the identical filesystem, and prints the same log. -/
theorem claim4_idempotent (fs fs1 : FS) (b : FsPath) (v : JVal) (l1 : CreateLog)
    (hw : wfKeysV v = true)
    (h : create_structure fs b v = .ok (fs1, l1)) :
    create_structure fs1 b v = .ok (fs1, l1) := by
  have hrep := create_replay v (create_establish v hw h)
  rw [create_log v h]
  exact hrep

def w4v : JVal := .obj (.fcons "a" (.obj (.fcons "f" (.str "x") .fnil)) .fnil)

def w4fs : FS := setEntry (setEntry emptyFS ["a"] .dir) ["a", "f"] (.file "x")

theorem claim4_idempotent_witness :
    wfKeysV w4v = true ∧
    create_structure emptyFS [] w4v = .ok (w4fs, [(true, ["a"]), (false, ["a", "f"])]) ∧
    create_structure w4fs [] w4v = .ok (w4fs, [(true, ["a"]), (false, ["a", "f"])]) :=
  ⟨by decide, rfl, claim4_idempotent emptyFS w4fs [] w4v _ (by decide) rfl⟩

/-- **C8, as stated, is false**: a bare number at the root is not touched
    as a filename; `base / content` raises `TypeError` and nothing is
    created. -/
theorem claim8_counterexample :
    create_structure emptyFS [] (.num 5) = .error .typeErr := rfl

/-- **C8 amended**: only a bare *string* at the root is treated as a
    filename: when the base directory exists and nothing sits at
    `baseDir/<string>`, an empty file is created there and nothing else
    (non-string, non-mapping, non-null roots raise a type error instead,
    and an existing entry at the path is left untouched by `touch`). -/
theorem claim8_amended_root_string_touch (fs : FS) (b : FsPath) (s : String)
    (hfresh : fs (b ++ [s]) = none) (hb : isDir fs b = true) :
    create_structure fs b (.str s)
      = .ok (setEntry fs (b ++ [s]) (.file ""), [(false, b ++ [s])]) :=
  create_str_of (touch_of_none (by simp) hfresh (by rw [dropLast_snoc]; exact hb))

theorem claim8_amended_root_string_touch_witness :
    emptyFS (([] : FsPath) ++ ["f"]) = none ∧
    isDir emptyFS [] = true ∧
    create_structure emptyFS [] (.str "f")
      = .ok (setEntry emptyFS ([] ++ ["f"]) (.file ""), [(false, [] ++ ["f"])]) :=
  ⟨rfl, rfl, claim8_amended_root_string_touch emptyFS [] "f" rfl rfl⟩

/-- **C9**: the creation log satisfies parent-before-child order: every
    created entry lives either directly in the (existing) base directory or
    in a directory whose creation was logged earlier. -/
theorem claim9_parent_before_child (fs fs' : FS) (b : FsPath) (v : JVal)
    (l : CreateLog) (hch : ChainDirs fs b)
    (h : create_structure fs b v = .ok (fs', l)) :
    logOk [b] l := by
  rw [create_log v h]
  exact logOfV_parents v b [b] (by simp)

theorem claim9_parent_before_child_witness :
    ChainDirs emptyFS [] ∧
    create_structure emptyFS [] w4v = .ok (w4fs, [(true, ["a"]), (false, ["a", "f"])]) ∧
    logOk [([] : FsPath)] [(true, ["a"]), (false, ["a", "f"])] :=
  ⟨fun q hq => by rw [List.prefix_nil.mp hq]; exact isDir_nil _, rfl,
    claim9_parent_before_child emptyFS w4fs [] w4v _
      (fun q hq => by rw [List.prefix_nil.mp hq]; exact isDir_nil _) rfl⟩

/-- **C10**: a member that is neither a mapping nor `None` — numbers,
    booleans and lists included — does not make materialization fail: the
    run succeeds and the file at `baseDir/name` holds Python's `str()` of
    the value.  The `asciiV` hypothesis scopes the claim to ASCII content,
    where the model of `repr`'s printability classification (and hence of
    `str` on lists and dicts) is exact. -/
theorem claim10_str_of_leaf (fs : FS) (b : FsPath) (f : Fields)
    (name : String) (sub : JVal)
    (hw : wfKeysV (.obj f) = true) (hch : ChainDirs fs b) (hfr : FreshUnder fs b)
    (hmem : MemF name sub f) (hdk : dirKind sub = false)
    (hascii : asciiV sub = true) :
    ∃ fs' l, create_structure fs b (.obj f) = .ok (fs', l) ∧
      fs' (b ++ [name]) = some (.file (pyStr sub)) := by
  obtain ⟨fs', l, h⟩ := create_success (.obj f) (Or.inl rfl) hw hch hfr
  exact ⟨fs', l, h, createFields_member_file f hmem hdk (wfKeysV_obj.mp hw).1 h⟩

/-- The list value of the witness: it holds a string with a single quote,
    whose `repr` switches to double quotes, and one with a backslash,
    which `repr` escapes. -/
def w10l : JVal :=
  .arr (.econs (.str (String.mk ['a', sqc, 'b']))
    (.econs (.str (String.mk ['x', '\\', 'y'])) .enil))

def w10f : Fields :=
  .fcons "n" (.num 7) (.fcons "t" (.bool true) (.fcons "l" w10l .fnil))

theorem claim10_str_of_leaf_witness :
    wfKeysV (.obj w10f) = true ∧
    MemF "l" w10l w10f ∧
    dirKind w10l = false ∧
    asciiV w10l = true ∧
    pyStr w10l = String.mk ['[', '"', 'a', sqc, 'b', '"', ',', ' ',
      sqc, 'x', '\\', '\\', 'y', sqc, ']'] ∧
    ∃ fs' l, create_structure emptyFS [] (.obj w10f) = .ok (fs', l) ∧
      fs' ([] ++ ["l"]) = some (.file (pyStr w10l)) :=
  ⟨by decide, Or.inr (Or.inr (Or.inl ⟨rfl, rfl⟩)), rfl, by decide, by decide,
    claim10_str_of_leaf emptyFS [] w10f "l" _
      (by decide)
      (fun q hq => by rw [List.prefix_nil.mp hq]; exact isDir_nil _)
      (fun q _ _ => rfl)
      (Or.inr (Or.inr (Or.inl ⟨rfl, rfl⟩))) rfl (by decide)⟩

/-! ## The JSON codec: `json.dump(..., indent=4)` and `json.load`

`save_json` serializes with `json.dump(self.project_structure, f, indent=4)`;
`load_json` and `create_from_json` parse with `json.load`.  The serializer
below reproduces `json.dump`'s output for the modelled values (4-space
indentation, `", "`-free separators `',' '\n'` and `': '`, `ensure_ascii`
escaping with surrogate pairs).  The parser is a model of `json.load`
restricted to the modelled values: numbers are integers (floats are outside
the data model). -/

def hex4 (n : Nat) : List Char :=
  [Nat.digitChar (n / 4096 % 16), Nat.digitChar (n / 256 % 16),
   Nat.digitChar (n / 16 % 16), Nat.digitChar (n % 16)]

def uEsc (n : Nat) : List Char := '\\' :: 'u' :: hex4 n

/-- One character escaped as `json.dump` writes it (`ensure_ascii=True`):
    the two-character escapes, `\uXXXX` for other control or non-ASCII
    characters, surrogate pairs beyond the basic plane, else the character
    itself. -/
def escapeChar (c : Char) : List Char :=
  if c = '\\' then ['\\', '\\']
  else if c = '"' then ['\\', '"']
  else if c = '\n' then ['\\', 'n']
  else if c = '\r' then ['\\', 'r']
  else if c = '\t' then ['\\', 't']
  else if c.toNat = 8 then ['\\', 'b']
  else if c.toNat = 12 then ['\\', 'f']
  else if c.toNat < 0x20 ∨ 0x7e < c.toNat then
    if c.toNat < 0x10000 then uEsc c.toNat
    else uEsc (0xd800 + (c.toNat - 0x10000) / 0x400)
      ++ uEsc (0xdc00 + (c.toNat - 0x10000) % 0x400)
  else [c]

def escString : List Char → List Char
  | [] => []
  | c :: cs => escapeChar c ++ escString cs

def serStr (s : String) : List Char := '"' :: (escString s.toList ++ ['"'])

/-- Decimal digits of `n`, most significant first. -/
def natChars (n : Nat) : List Char :=
  if n < 10 then [Nat.digitChar n]
  else natChars (n / 10) ++ [Nat.digitChar (n % 10)]
termination_by n
decreasing_by
  rename_i hn
  omega

def intChars (i : Int) : List Char :=
  if i < 0 then '-' :: natChars i.natAbs else natChars i.natAbs

/-- `indent=4`: each nesting level is four spaces. -/
def pad (lvl : Nat) : List Char := List.replicate (4 * lvl) ' '

mutual

/-- The characters `json.dump(v, indent=4)` writes at nesting level `lvl`. -/
def serV (lvl : Nat) : JVal → List Char
  | .null => "null".data
  | .bool true => "true".data
  | .bool false => "false".data
  | .num i => intChars i
  | .str s => serStr s
  | .arr .enil => ['[', ']']
  | .arr (.econs v rest) =>
    '[' :: '\n' :: (serE (lvl + 1) (.econs v rest) ++ '\n' :: (pad lvl ++ [']']))
  | .obj .fnil => ['\x7b', '\x7d']
  | .obj (.fcons n v rest) =>
    '\x7b' :: '\n' :: (serF (lvl + 1) (.fcons n v rest) ++ '\n' :: (pad lvl ++ ['\x7d']))

def serE (lvl : Nat) : Elems → List Char
  | .enil => []
  | .econs v .enil => pad lvl ++ serV lvl v
  | .econs v (.econs w rest) =>
    pad lvl ++ serV lvl v ++ ',' :: '\n' :: serE lvl (.econs w rest)

def serF (lvl : Nat) : Fields → List Char
  | .fnil => []
  | .fcons n v .fnil => pad lvl ++ (serStr n ++ ':' :: ' ' :: serV lvl v)
  | .fcons n v (.fcons n2 w rest) =>
    pad lvl ++ (serStr n ++ ':' :: ' ' :: serV lvl v)
      ++ ',' :: '\n' :: serF lvl (.fcons n2 w rest)

end

/-- `json.dump(v, f, indent=4)`: the text written to the file. -/
def dumps (v : JVal) : String := String.mk (serV 0 v)

/-! ### The parser (`json.load`) -/

def isWsC (c : Char) : Bool := c = ' ' || c = '\t' || c = '\n' || c = '\r'

def skipWs : List Char → List Char
  | [] => []
  | c :: cs => if isWsC c then skipWs cs else c :: cs

def isDigitC (c : Char) : Bool := decide ('0' ≤ c) && decide (c ≤ '9')

def hexVal (c : Char) : Option Nat :=
  let k := c.toNat
  if 48 ≤ k ∧ k ≤ 57 then some (k - 48)
  else if 97 ≤ k ∧ k ≤ 102 then some (k - 97 + 10)
  else if 65 ≤ k ∧ k ≤ 70 then some (k - 65 + 10)
  else none

def hex4Val (a b c d : Char) : Option Nat :=
  match hexVal a, hexVal b, hexVal c, hexVal d with
  | some x, some y, some z, some w => some (((x * 16 + y) * 16 + z) * 16 + w)
  | _, _, _, _ => none

/-- Four hex digits, as in `\uXXXX`. -/
def parseU4 : List Char → Option (Nat × List Char)
  | a :: b :: c :: d :: rest =>
    match hex4Val a b c d with
    | some n => some (n, rest)
    | none => none
  | _ => none

def escChar (e : Char) : Option Char :=
  if e = '"' ∨ e = '\\' ∨ e = '/' then some e
  else if e = 'n' then some '\n'
  else if e = 't' then some '\t'
  else if e = 'r' then some '\r'
  else if e = 'b' then some (Char.ofNat 8)
  else if e = 'f' then some (Char.ofNat 12)
  else none

/-- The body of a JSON string after the opening quote, decoding escapes
    (including `\uXXXX` and surrogate pairs).  The fuel only bounds the
    number of decoded characters; every step consumes at least one input
    character, so `input length + 1` is always enough. -/
def parseStrBody : Nat → List Char → List Char → Option (List Char × List Char)
  | 0, _, _ => none
  | fuel + 1, acc, cs =>
    match cs with
    | [] => none
    | '"' :: rest => some (acc.reverse, rest)
    | '\\' :: rest =>
      match rest with
      | 'u' :: rest1 =>
        match parseU4 rest1 with
        | none => none
        | some (n, rest2) =>
          if 0xd800 ≤ n ∧ n ≤ 0xdbff then
            match rest2 with
            | '\\' :: 'u' :: rest3 =>
              match parseU4 rest3 with
              | none => none
              | some (m, rest4) =>
                if 0xdc00 ≤ m ∧ m ≤ 0xdfff then
                  parseStrBody fuel
                    (Char.ofNat (0x10000 + (n - 0xd800) * 0x400 + (m - 0xdc00)) :: acc) rest4
                else none
            | _ => none
          else if 0xdc00 ≤ n ∧ n ≤ 0xdfff then none
          else parseStrBody fuel (Char.ofNat n :: acc) rest2
      | e :: rest1 =>
        match escChar e with
        | some ch => parseStrBody fuel (ch :: acc) rest1
        | none => none
      | [] => none
    | c :: rest => parseStrBody fuel (c :: acc) rest

def digitsVal (ds : List Char) : Nat :=
  ds.foldl (fun a c => 10 * a + (c.toNat - '0'.toNat)) 0

def parseNumber (cs : List Char) : Option (Int × List Char) :=
  match cs with
  | '-' :: rest =>
    let ds := rest.takeWhile isDigitC
    if ds.isEmpty then none
    else some (-(digitsVal ds : Int), rest.dropWhile isDigitC)
  | _ =>
    let ds := cs.takeWhile isDigitC
    if ds.isEmpty then none
    else some ((digitsVal ds : Int), cs.dropWhile isDigitC)

mutual

/-- One JSON value (fuelled: the fuel only bounds recursion depth). -/
def parseVal : Nat → List Char → Option (JVal × List Char)
  | 0, _ => none
  | fuel + 1, cs =>
    match skipWs cs with
    | 'n' :: ('u' :: ('l' :: ('l' :: r))) => some (.null, r)
    | 't' :: ('r' :: ('u' :: ('e' :: r))) => some (.bool true, r)
    | 'f' :: ('a' :: ('l' :: ('s' :: ('e' :: r)))) => some (.bool false, r)
    | '"' :: r =>
      match parseStrBody (r.length + 1) [] r with
      | some (cs2, r2) => some (.str (String.mk cs2), r2)
      | none => none
    | '[' :: r =>
      match skipWs r with
      | ']' :: r2 => some (.arr .enil, r2)
      | _ =>
        match parseElems fuel r with
        | some (es, r2) => some (.arr es, r2)
        | none => none
    | '\x7b' :: r =>
      match skipWs r with
      | '\x7d' :: r2 => some (.obj .fnil, r2)
      | _ =>
        match parseFields fuel r with
        | some (ms, r2) => some (.obj ms, r2)
        | none => none
    | c :: r =>
      if c = '-' || isDigitC c then
        match parseNumber (c :: r) with
        | some (i, r2) => some (.num i, r2)
        | none => none
      else none
    | [] => none

/-- One-or-more comma-separated array elements up to the closing bracket. -/
def parseElems : Nat → List Char → Option (Elems × List Char)
  | 0, _ => none
  | fuel + 1, cs =>
    match parseVal fuel cs with
    | none => none
    | some (v, r) =>
      match skipWs r with
      | ',' :: r2 =>
        match parseElems fuel r2 with
        | some (vs, r3) => some (.econs v vs, r3)
        | none => none
      | ']' :: r2 => some (.econs v .enil, r2)
      | _ => none

/-- One-or-more `"key": value` members up to the closing brace. -/
def parseFields : Nat → List Char → Option (Fields × List Char)
  | 0, _ => none
  | fuel + 1, cs =>
    match skipWs cs with
    | '"' :: r =>
      match parseStrBody (r.length + 1) [] r with
      | none => none
      | some (kcs, r1) =>
        match skipWs r1 with
        | ':' :: r2 =>
          match parseVal fuel r2 with
          | none => none
          | some (v, r3) =>
            match skipWs r3 with
            | ',' :: r4 =>
              match parseFields fuel r4 with
              | some (ms, r5) => some (.fcons (String.mk kcs) v ms, r5)
              | none => none
            | '\x7d' :: r4 => some (.fcons (String.mk kcs) v .fnil, r4)
            | _ => none
        | _ => none
    | _ => none

end

/-- `json.load`: parse the whole text, rejecting trailing garbage. -/
def loads (s : String) : Option JVal :=
  match parseVal (s.length + 1) s.toList with
  | some (v, r) => if (skipWs r).isEmpty then some v else none
  | none => none

theorem loads_sample_bad : loads "[" = none := rfl

theorem loads_sample_null : loads "null" = some .null := rfl

theorem loads_sample_obj :
    loads (String.mk ['\x7b', '"', 'a', '"', ':', ' ', '1', '\x7d'])
      = some (.obj (.fcons "a" (.num 1) .fnil)) := rfl

/-! ## The editor (`ProjectDesigner`) -/

/-- The editor's mutable state: the in-memory structure and the status
    bar's text (`self.project_structure`, `self.status`). -/
structure DesignerState where
  project_structure : JVal
  status : String

/-- A modal message box (`messagebox.showinfo` / `messagebox.showerror`). -/
inductive Modal where
  | info (title msg : String) : Modal
  | error (title msg : String) : Modal

def pathText (p : FsPath) : String := String.intercalate "/" p

/-- `ProjectDesigner.load_json`.  `dialog` is the file dialog's outcome:
    `none` when cancelled, otherwise the chosen path and the chosen file's
    text.  The result is the new state plus the modal message shown, if
    any (the tree view redraw carries no state here, and the model's
    `loads` returns no exception text, so the message body is fixed). -/
def load_json (st : DesignerState) (dialog : Option (String × String)) :
    DesignerState × Option Modal :=
  match dialog with
  | none => (st, none)
  | some (file_path, contents) =>
    match loads contents with
    | some v =>
      ({ project_structure := v, status := "Loaded structure from: " ++ file_path }, none)
    | none => (st, some (.error "Error" "Failed to load JSON"))

/-- `ProjectDesigner.save_json`: on a chosen path, the dump of the current
    structure is written there (returned as path and text). -/
def save_json (st : DesignerState) (dialog : Option String) :
    DesignerState × Option (String × String) :=
  match dialog with
  | none => (st, none)
  | some file_path =>
    ({ st with status := "Structure saved to: " ++ file_path },
     some (file_path, dumps st.project_structure))

/-- `ProjectDesigner.generate_project`: on a chosen directory, run the
    materializer over the current structure; report success or the first
    error as a modal. -/
def generate_project (st : DesignerState) (fs : FS) (dialog : Option FsPath) :
    DesignerState × FS × Option Modal :=
  match dialog with
  | none => (st, fs, none)
  | some target_dir =>
    match create_structure fs target_dir st.project_structure with
    | .ok (fs1, _) =>
      ({ st with status := "Project created at: " ++ pathText target_dir }, fs1,
        some (.info "Success" "Project generated"))
    | .error _ => (st, fs, some (.error "Error" "Failed to create project"))

/-- **C6**: generation never changes the in-memory structure, whether the
    dialog is cancelled, the run succeeds, or the run fails: the state
    after `generate_project` holds the same `project_structure` (the
    materializer reads the structure and only writes to the filesystem). -/
theorem claim6_generation_preserves_structure (st : DesignerState) (fs : FS)
    (dialog : Option FsPath) :
    ((generate_project st fs dialog).1).project_structure = st.project_structure := by
  cases dialog with
  | none => rfl
  | some d =>
    unfold generate_project
    dsimp only
    cases create_structure fs d st.project_structure with
    | ok pr => obtain ⟨fs1, l⟩ := pr; rfl
    | error e => rfl

/-- **C7**: when parsing the chosen file fails, `load_json` reports the
    error as a modal and leaves the whole editor state — in particular the
    in-memory structure — exactly as it was. -/
theorem claim7_load_failure_keeps_state (st : DesignerState) (fp contents : String)
    (hbad : loads contents = none) :
    load_json st (some (fp, contents))
      = (st, some (.error "Error" "Failed to load JSON")) := by
  unfold load_json
  dsimp only
  rw [hbad]

theorem claim7_load_failure_keeps_state_witness :
    loads "[" = none ∧
    load_json ⟨.null, "Ready"⟩ (some ("f.json", "["))
      = (⟨.null, "Ready"⟩, some (.error "Error" "Failed to load JSON")) :=
  ⟨rfl, claim7_load_failure_keeps_state ⟨.null, "Ready"⟩ "f.json" "[" rfl⟩


/-! ### Round-trip: strings -/

theorem hexVal_digitChar : ∀ d < 16, hexVal (Nat.digitChar d) = some d := by decide

theorem parseU4_hex4 {n : Nat} (h : n < 65536) (rest : List Char) :
    parseU4 (hex4 n ++ rest) = some (n, rest) := by
  simp only [hex4, List.cons_append, List.nil_append]
  simp only [parseU4, hex4Val]
  rw [hexVal_digitChar _ (by omega), hexVal_digitChar _ (by omega),
      hexVal_digitChar _ (by omega), hexVal_digitChar _ (by omega)]
  dsimp only
  rw [show (n / 4096 % 16 * 16 + n / 256 % 16) * 16 + n / 16 % 16 = n / 16 by omega]
  rw [show n / 16 * 16 + n % 16 = n by omega]

theorem char_valid_nat (c : Char) :
    c.toNat < 0xd800 ∨ (0xdfff < c.toNat ∧ c.toNat < 0x110000) := c.valid

/-- The `\u` arm of `parseStrBody`, unfolded (definitional). -/
theorem parseStrBody_uStep (fuel : Nat) (acc rest : List Char) :
    parseStrBody (fuel + 1) acc ('\\' :: 'u' :: rest) =
      (match parseU4 rest with
       | none => none
       | some (n, rest2) =>
         if 0xd800 ≤ n ∧ n ≤ 0xdbff then
           match rest2 with
           | '\\' :: 'u' :: rest3 =>
             match parseU4 rest3 with
             | none => none
             | some (m, rest4) =>
               if 0xdc00 ≤ m ∧ m ≤ 0xdfff then
                 parseStrBody fuel
                   (Char.ofNat (0x10000 + (n - 0xd800) * 0x400 + (m - 0xdc00)) :: acc) rest4
               else none
           | _ => none
         else if 0xdc00 ≤ n ∧ n ≤ 0xdfff then none
         else parseStrBody fuel (Char.ofNat n :: acc) rest2) := rfl

theorem parseStrBody_uEsc_small {c : Char} (hsmall : c.toNat < 0x10000)
    (fuel : Nat) (acc rest : List Char) :
    parseStrBody (fuel + 1) acc (uEsc c.toNat ++ rest) = parseStrBody fuel (c :: acc) rest := by
  have hv := char_valid_nat c
  show parseStrBody (fuel + 1) acc ('\\' :: 'u' :: (hex4 c.toNat ++ rest)) = _
  rw [parseStrBody_uStep, parseU4_hex4 hsmall]
  dsimp only
  rw [if_neg (by omega), if_neg (by omega), Char.ofNat_toNat]

theorem parseStrBody_uEsc_pair {c : Char} (hbig : 0x10000 ≤ c.toNat)
    (fuel : Nat) (acc rest : List Char) :
    parseStrBody (fuel + 1) acc
      ((uEsc (0xd800 + (c.toNat - 0x10000) / 0x400)
        ++ uEsc (0xdc00 + (c.toNat - 0x10000) % 0x400)) ++ rest)
      = parseStrBody fuel (c :: acc) rest := by
  have hv := char_valid_nat c
  show parseStrBody (fuel + 1) acc
      ('\\' :: 'u' :: (hex4 (0xd800 + (c.toNat - 0x10000) / 0x400)
        ++ ('\\' :: 'u' :: (hex4 (0xdc00 + (c.toNat - 0x10000) % 0x400) ++ rest)))) = _
  rw [parseStrBody_uStep, parseU4_hex4 (by omega)]
  dsimp only
  rw [if_pos (by omega)]
  split
  · rename_i rest3 heq1 heq2
    injection heq2 with k1 k2
    injection k2 with k3 k4
    subst k4
    rw [parseU4_hex4 (by omega)]
    dsimp only
    rw [if_pos (by omega)]
    rw [show 0x10000 + (0xd800 + (c.toNat - 0x10000) / 0x400 - 0xd800) * 0x400
          + (0xdc00 + (c.toNat - 0x10000) % 0x400 - 0xdc00) = c.toNat by omega]
    rw [Char.ofNat_toNat]
  · rename_i hne
    exact absurd rfl (hne _)

theorem parseStrBody_escapeChar (c : Char) (fuel : Nat) (acc rest : List Char) :
    parseStrBody (fuel + 1) acc (escapeChar c ++ rest) = parseStrBody fuel (c :: acc) rest := by
  by_cases h1 : c = '\\'
  · subst h1; simp [escapeChar, parseStrBody, escChar]
  by_cases h2 : c = '"'
  · subst h2; simp [escapeChar, parseStrBody, escChar]
  by_cases h3 : c = '\n'
  · subst h3; simp [escapeChar, parseStrBody, escChar]
  by_cases h4 : c = '\r'
  · subst h4; simp [escapeChar, parseStrBody, escChar]
  by_cases h5 : c = '\t'
  · subst h5; simp [escapeChar, parseStrBody, escChar]
  by_cases h6 : c.toNat = 8
  · unfold escapeChar
    rw [if_neg h1, if_neg h2, if_neg h3, if_neg h4, if_neg h5, if_pos h6]
    have hc : Char.ofNat 8 = c := by rw [← h6, Char.ofNat_toNat]
    simp only [List.cons_append, List.nil_append]
    simp [parseStrBody, escChar]
    rw [hc]
  by_cases h7 : c.toNat = 12
  · unfold escapeChar
    rw [if_neg h1, if_neg h2, if_neg h3, if_neg h4, if_neg h5, if_neg h6, if_pos h7]
    have hc : Char.ofNat 12 = c := by rw [← h7, Char.ofNat_toNat]
    simp only [List.cons_append, List.nil_append]
    simp [parseStrBody, escChar]
    rw [hc]
  unfold escapeChar
  rw [if_neg h1, if_neg h2, if_neg h3, if_neg h4, if_neg h5, if_neg h6, if_neg h7]
  by_cases h8 : c.toNat < 0x20 ∨ 0x7e < c.toNat
  · rw [if_pos h8]
    by_cases hsmall : c.toNat < 0x10000
    · rw [if_pos hsmall]
      exact parseStrBody_uEsc_small hsmall fuel acc rest
    · rw [if_neg hsmall]
      exact parseStrBody_uEsc_pair (by omega) fuel acc rest
  · rw [if_neg h8]
    show parseStrBody (fuel + 1) acc (c :: rest) = _
    rw [parseStrBody.eq_def]
    simp [h1, h2]

theorem parseStrBody_escString : ∀ (cs : List Char) (fuel : Nat) (acc rest : List Char),
    cs.length < fuel →
    parseStrBody fuel acc (escString cs ++ '"' :: rest) = some (acc.reverse ++ cs, rest)
  | [], fuel, acc, rest, h => by
    cases fuel with
    | zero => omega
    | succ f => simp [escString, parseStrBody]
  | c :: cs, fuel, acc, rest, h => by
    cases fuel with
    | zero => omega
    | succ f =>
      rw [show escString (c :: cs) = escapeChar c ++ escString cs from rfl, List.append_assoc,
          parseStrBody_escapeChar,
          parseStrBody_escString cs f (c :: acc) rest (by simp at h; omega)]
      simp

theorem escapeChar_length_pos (c : Char) : 1 ≤ (escapeChar c).length := by
  unfold escapeChar
  split_ifs <;> simp [uEsc, hex4]

theorem escString_length : ∀ cs : List Char, cs.length ≤ (escString cs).length
  | [] => Nat.le_refl 0
  | c :: cs => by
    have h1 := escapeChar_length_pos c
    have h2 := escString_length cs
    simp only [escString, List.length_append, List.length_cons]
    omega

theorem stringMk_toList (s : String) : String.mk s.toList = s := rfl

/-- A rendered string parses back, with the fuel the parser call sites use. -/
theorem parseStr_round (s : String) (X : List Char) :
    parseStrBody ((escString s.toList ++ '"' :: X).length + 1) []
        (escString s.toList ++ '"' :: X) = some (s.toList, X) := by
  have hlen : s.toList.length < (escString s.toList ++ '"' :: X).length + 1 := by
    have := escString_length s.toList
    simp only [List.length_append, List.length_cons]
    omega
  rw [parseStrBody_escString s.toList _ [] X hlen]
  simp


/-! ### Round-trip: numbers -/

/-- The remainder does not begin with a digit, so it cannot extend a
    parsed number (every delimiter `json.dump` emits after a number —
    a comma, a newline, a closing bracket or brace, or the end of the
    text — satisfies this). -/
def noDigitHead : List Char → Bool
  | [] => true
  | c :: _ => !(isDigitC c)

theorem digit_isDigitC : ∀ d < 10, isDigitC (Nat.digitChar d) = true := by decide

theorem digit_val : ∀ d < 10, (Nat.digitChar d).toNat - '0'.toNat = d := by decide

theorem natChars_digits (n : Nat) : ∀ c ∈ natChars n, isDigitC c = true := by
  induction n using Nat.strongRecOn with
  | _ n ih =>
    unfold natChars
    by_cases h : n < 10
    · rw [if_pos h]
      intro c hc
      simp only [List.mem_singleton] at hc
      subst hc
      exact digit_isDigitC _ (by omega)
    · rw [if_neg h]
      intro c hc
      rcases List.mem_append.mp hc with h1 | h1
      · exact ih (n / 10) (by omega) c h1
      · simp only [List.mem_singleton] at h1
        subst h1
        exact digit_isDigitC _ (by omega)

theorem natChars_ne_nil (n : Nat) : natChars n ≠ [] := by
  unfold natChars
  by_cases h : n < 10
  · simp [h]
  · simp [h]

theorem natChars_head (n : Nat) : ∃ c t, natChars n = c :: t ∧ isDigitC c = true := by
  rcases heq : natChars n with - | ⟨c, t⟩
  · exact absurd heq (natChars_ne_nil n)
  · exact ⟨c, t, rfl, natChars_digits n c (heq ▸ List.mem_cons_self c t)⟩

theorem digitsVal_append_digit (l : List Char) (d : Char) :
    digitsVal (l ++ [d]) = 10 * digitsVal l + (d.toNat - '0'.toNat) := by
  simp [digitsVal, List.foldl_append]

theorem digitsVal_natChars (n : Nat) : digitsVal (natChars n) = n := by
  induction n using Nat.strongRecOn with
  | _ n ih =>
    unfold natChars
    by_cases h : n < 10
    · rw [if_pos h]
      show digitsVal ([] ++ [Nat.digitChar n]) = n
      rw [digitsVal_append_digit, digit_val n (by omega)]
      have h0 : digitsVal ([] : List Char) = 0 := rfl
      rw [h0]
      omega
    · rw [if_neg h]
      rw [digitsVal_append_digit, ih (n / 10) (by omega)]
      have := digit_val (n % 10) (by omega)
      omega

theorem takeWhile_digits_append (ds rest : List Char)
    (hds : ∀ c ∈ ds, isDigitC c = true) (hrest : noDigitHead rest = true) :
    (ds ++ rest).takeWhile isDigitC = ds ∧ (ds ++ rest).dropWhile isDigitC = rest := by
  induction ds with
  | nil =>
    simp only [List.nil_append]
    cases rest with
    | nil => simp
    | cons c t =>
      have hc : isDigitC c = false := by simpa [noDigitHead] using hrest
      simp [List.takeWhile_cons, List.dropWhile_cons, hc]
  | cons d ds ih =>
    have hd : isDigitC d = true := hds d (List.mem_cons_self d ds)
    obtain ⟨h1, h2⟩ := ih (fun c hc => hds c (List.mem_cons_of_mem d hc))
    simp [List.takeWhile_cons, List.dropWhile_cons, hd, h1, h2]

theorem digit_ne_minus {c : Char} (h : isDigitC c = true) : c ≠ '-' := by
  rintro rfl
  exact absurd h (by decide)

theorem parseNumber_round (i : Int) (rest : List Char) (hrest : noDigitHead rest = true) :
    parseNumber (intChars i ++ rest) = some (i, rest) := by
  obtain ⟨htake, hdrop⟩ :=
    takeWhile_digits_append (natChars i.natAbs) rest (natChars_digits _) hrest
  by_cases hneg : i < 0
  · rw [show intChars i = '-' :: natChars i.natAbs from by rw [intChars, if_pos hneg]]
    show parseNumber ('-' :: (natChars i.natAbs ++ rest)) = _
    simp only [parseNumber, htake, hdrop]
    rw [if_neg (by simpa [List.isEmpty_iff] using natChars_ne_nil i.natAbs)]
    rw [digitsVal_natChars]
    congr 2
    omega
  · obtain ⟨c0, t0, heq, hc0⟩ := natChars_head i.natAbs
    rw [show intChars i = natChars i.natAbs from by rw [intChars, if_neg hneg], heq]
    show parseNumber (c0 :: (t0 ++ rest)) = _
    rw [parseNumber.eq_def]
    have hm := digit_ne_minus hc0
    have htake2 : (c0 :: (t0 ++ rest)).takeWhile isDigitC = c0 :: t0 := by
      have := htake
      rw [heq] at this
      simpa using this
    have hdrop2 : (c0 :: (t0 ++ rest)).dropWhile isDigitC = rest := by
      have := hdrop
      rw [heq] at this
      simpa using this
    split
    · rename_i r0 heq2
      injection heq2 with k1 k2
      exact absurd k1 hm
    · simp only [htake2, hdrop2]
      rw [if_neg (by simp [List.isEmpty_iff])]
      have hv : digitsVal (c0 :: t0) = i.natAbs := by
        have := digitsVal_natChars i.natAbs
        rwa [heq] at this
      rw [hv]
      congr 2
      omega


/-! ### Round-trip: whitespace and head characters -/

theorem skipWs_cons_ws {c : Char} (h : isWsC c = true) (x : List Char) :
    skipWs (c :: x) = skipWs x := by
  simp [skipWs, h]

theorem skipWs_cons_not {c : Char} (h : isWsC c = false) (x : List Char) :
    skipWs (c :: x) = c :: x := by
  simp [skipWs, h]

theorem skipWs_spaces (m : Nat) (x : List Char) :
    skipWs (List.replicate m ' ' ++ x) = skipWs x := by
  induction m with
  | zero => rfl
  | succ mprev ihrep =>
    rw [List.replicate_succ, List.cons_append, skipWs_cons_ws (by decide)]
    exact ihrep

theorem skipWs_pad (lvl : Nat) (x : List Char) : skipWs (pad lvl ++ x) = skipWs x :=
  skipWs_spaces _ x

theorem skipWs_newline (x : List Char) : skipWs ('\n' :: x) = skipWs x :=
  skipWs_cons_ws (by decide) x

theorem natChars_shape (n : Nat) : ∀ c ∈ natChars n, ∃ d, d < 10 ∧ c = Nat.digitChar d := by
  induction n using Nat.strongRecOn with
  | _ n ih =>
    unfold natChars
    by_cases h : n < 10
    · rw [if_pos h]
      intro c hc
      simp only [List.mem_singleton] at hc
      exact ⟨n, h, hc⟩
    · rw [if_neg h]
      intro c hc
      rcases List.mem_append.mp hc with h1 | h1
      · exact ih (n / 10) (by omega) c h1
      · simp only [List.mem_singleton] at h1
        exact ⟨n % 10, by omega, h1⟩

theorem digitChar_props : ∀ d < 10,
    isWsC (Nat.digitChar d) = false ∧ isDigitC (Nat.digitChar d) = true ∧
    Nat.digitChar d ≠ ']' ∧ Nat.digitChar d ≠ '\x7d' ∧
    Nat.digitChar d ≠ 'n' ∧ Nat.digitChar d ≠ 't' ∧ Nat.digitChar d ≠ 'f' ∧
    Nat.digitChar d ≠ '"' ∧ Nat.digitChar d ≠ '[' ∧ Nat.digitChar d ≠ '\x7b' := by
  decide

/-- The first character of a rendered value: never whitespace, never a
    closing bracket or brace. -/
theorem serV_head (lvl : Nat) (v : JVal) :
    ∃ c t, serV lvl v = c :: t ∧ isWsC c = false ∧ c ≠ ']' ∧ c ≠ '\x7d' := by
  cases v with
  | null => exact ⟨_, _, rfl, by decide, by decide, by decide⟩
  | bool b0 =>
    cases b0 <;> exact ⟨_, _, rfl, by decide, by decide, by decide⟩
  | num i =>
    by_cases hneg : i < 0
    · refine ⟨'-', natChars i.natAbs, ?_, by decide, by decide, by decide⟩
      show intChars i = _
      rw [intChars, if_pos hneg]
    · obtain ⟨c0, t0, heq, hc0⟩ := natChars_head i.natAbs
      obtain ⟨d, hd, rfl⟩ := natChars_shape i.natAbs c0 (heq ▸ List.mem_cons_self c0 t0)
      obtain ⟨p1, -, p3, p4, -⟩ := digitChar_props d hd
      refine ⟨Nat.digitChar d, t0, ?_, p1, p3, p4⟩
      show intChars i = _
      rw [intChars, if_neg hneg, heq]
  | str s => exact ⟨'"', _, rfl, by decide, by decide, by decide⟩
  | arr xs =>
    cases xs with
    | enil => exact ⟨'[', _, rfl, by decide, by decide, by decide⟩
    | econs v rest => exact ⟨'[', _, rfl, by decide, by decide, by decide⟩
  | obj f =>
    cases f with
    | fnil => exact ⟨'\x7b', _, rfl, by decide, by decide, by decide⟩
    | fcons n v rest => exact ⟨'\x7b', _, rfl, by decide, by decide, by decide⟩

theorem serV_len_pos (lvl : Nat) (v : JVal) : 1 ≤ (serV lvl v).length := by
  obtain ⟨c, t, heq, -⟩ := serV_head lvl v
  rw [heq]
  simp

theorem skipWs_serV (lvl : Nat) (v : JVal) (x : List Char) :
    skipWs (serV lvl v ++ x) = serV lvl v ++ x := by
  obtain ⟨c, t, heq, hws, -⟩ := serV_head lvl v
  rw [heq, List.cons_append, skipWs_cons_not hws]

/-- `parseVal` looks only at the whitespace-normalized input. -/
theorem parseVal_congr (fuel : Nat) {cs x : List Char} (h : skipWs cs = skipWs x) :
    parseVal fuel cs = parseVal fuel x := by
  cases fuel with
  | zero => rfl
  | succ f =>
    simp only [parseVal]
    rw [h]


/-! ### Round-trip: parser step lemmas -/

theorem parseVal_step_str (f : Nat) (r : List Char) :
    parseVal (f + 1) ('"' :: r) =
      (match parseStrBody (r.length + 1) [] r with
       | some (cs2, r2) => some (.str (String.mk cs2), r2)
       | none => none) := rfl

theorem parseVal_step_arr (f : Nat) (r : List Char) :
    parseVal (f + 1) ('[' :: r) =
      (match skipWs r with
       | ']' :: r2 => some (.arr .enil, r2)
       | _ =>
         match parseElems f r with
         | some (es, r2) => some (.arr es, r2)
         | none => none) := rfl

theorem parseVal_step_obj (f : Nat) (r : List Char) :
    parseVal (f + 1) ('\x7b' :: r) =
      (match skipWs r with
       | '\x7d' :: r2 => some (.obj .fnil, r2)
       | _ =>
         match parseFields f r with
         | some (ms, r2) => some (.obj ms, r2)
         | none => none) := rfl

theorem parseVal_step_num (f : Nat) (c0 : Char) (t : List Char) (g1 : isWsC c0 = false)
    (g2 : c0 ≠ 'n') (g3 : c0 ≠ 't') (g4 : c0 ≠ 'f') (g5 : c0 ≠ '"')
    (g6 : c0 ≠ '[') (g7 : c0 ≠ '\x7b') (g8 : c0 = '-' ∨ isDigitC c0 = true) :
    parseVal (f + 1) (c0 :: t) =
      (match parseNumber (c0 :: t) with
       | some (i, r2) => some (.num i, r2)
       | none => none) := by
  simp only [parseVal]
  rw [skipWs_cons_not g1]
  split
  · rename_i heq; injection heq with k1 k2; exact absurd k1 g2
  · rename_i heq; injection heq with k1 k2; exact absurd k1 g3
  · rename_i heq; injection heq with k1 k2; exact absurd k1 g4
  · rename_i heq; injection heq with k1 k2; exact absurd k1 g5
  · rename_i heq; injection heq with k1 k2; exact absurd k1 g6
  · rename_i heq; injection heq with k1 k2; exact absurd k1 g7
  · rename_i heq
    injection heq with k1 k2
    subst k1
    subst k2
    have hb : (decide (c0 = '-') || isDigitC c0) = true := by
      rcases g8 with h | h
      · rw [h]; rfl
      · rw [h, Bool.or_true]
    rw [if_pos hb]
  · rename_i heq; cases heq

theorem parseElems_step (f : Nat) (cs : List Char) :
    parseElems (f + 1) cs =
      (match parseVal f cs with
       | none => none
       | some (v, r) =>
         match skipWs r with
         | ',' :: r2 =>
           (match parseElems f r2 with
            | some (vs, r3) => some (.econs v vs, r3)
            | none => none)
         | ']' :: r2 => some (.econs v .enil, r2)
         | _ => none) := rfl

theorem parseFields_step (f : Nat) (cs : List Char) :
    parseFields (f + 1) cs =
      (match skipWs cs with
       | '"' :: r =>
         match parseStrBody (r.length + 1) [] r with
         | none => none
         | some (kcs, r1) =>
           match skipWs r1 with
           | ':' :: r2 =>
             match parseVal f r2 with
             | none => none
             | some (v, r3) =>
               match skipWs r3 with
               | ',' :: r4 =>
                 (match parseFields f r4 with
                  | some (ms, r5) => some (.fcons (String.mk kcs) v ms, r5)
                  | none => none)
               | '\x7d' :: r4 => some (.fcons (String.mk kcs) v .fnil, r4)
               | _ => none
           | _ => none
       | _ => none) := rfl

/-- A nonempty element list renders as its padding, its first value, and a
    continuation. -/
theorem serE_decomp (lvl : Nat) (w : JVal) (ws : Elems) :
    ∃ Y, serE lvl (.econs w ws) = pad lvl ++ (serV lvl w ++ Y) := by
  cases ws with
  | enil => exact ⟨[], by simp [serE]⟩
  | econs w2 ws2 => exact ⟨',' :: '\n' :: serE lvl (.econs w2 ws2), by simp [serE]⟩

/-- A nonempty member list renders as its padding, its quoted first key, and a
    continuation. -/
theorem serF_decomp (lvl : Nat) (n : String) (w : JVal) (ms : Fields) :
    ∃ Z, serF lvl (.fcons n w ms) = pad lvl ++ (serStr n ++ Z) := by
  cases ms with
  | fnil => exact ⟨':' :: ' ' :: serV lvl w, by simp [serF]⟩
  | fcons n2 w2 ms2 =>
    exact ⟨(':' :: ' ' :: serV lvl w) ++ ',' :: '\n' :: serF lvl (.fcons n2 w2 ms2),
      by simp [serF]⟩

/-! ### The round-trip, whole grammar -/

mutual

theorem rt_val : ∀ (v : JVal) (lvl fuel : Nat) (rest : List Char),
    (serV lvl v).length < fuel → noDigitHead rest = true →
    parseVal fuel (serV lvl v ++ rest) = some (v, rest)
  | v, lvl, 0, rest, hlen, _ => by omega
  | .null, lvl, f + 1, rest, hlen, _ => rfl
  | .bool true, lvl, f + 1, rest, hlen, _ => rfl
  | .bool false, lvl, f + 1, rest, hlen, _ => rfl
  | .num i, lvl, f + 1, rest, hlen, hrest => by
    by_cases hneg : i < 0
    · have heq : serV lvl (.num i) ++ rest = '-' :: (natChars i.natAbs ++ rest) := by
        show intChars i ++ rest = _
        rw [intChars, if_pos hneg]
        rfl
      have hmf : ('-' : Char) ≠ 'n' ∧ ('-' : Char) ≠ 't' ∧ ('-' : Char) ≠ 'f' ∧
          ('-' : Char) ≠ '"' ∧ ('-' : Char) ≠ '[' ∧ ('-' : Char) ≠ '\x7b' := by decide
      rw [heq, parseVal_step_num f '-' _ rfl hmf.1 hmf.2.1 hmf.2.2.1 hmf.2.2.2.1
            hmf.2.2.2.2.1 hmf.2.2.2.2.2 (Or.inl rfl), ← heq]
      rw [show serV lvl (.num i) ++ rest = intChars i ++ rest from rfl,
          parseNumber_round i rest hrest]
    · obtain ⟨c0, t0, hnat, hc0⟩ := natChars_head i.natAbs
      obtain ⟨d, hd, hdig⟩ := natChars_shape i.natAbs c0 (hnat ▸ List.mem_cons_self c0 t0)
      obtain ⟨p1, p2, -, -, p5, p6, p7, p8, p9, p10⟩ := digitChar_props d hd
      subst hdig
      have heq : serV lvl (.num i) ++ rest = Nat.digitChar d :: (t0 ++ rest) := by
        show intChars i ++ rest = _
        rw [intChars, if_neg hneg, hnat]
        rfl
      rw [heq, parseVal_step_num f _ _ p1 p5 p6 p7 p8 p9 p10 (Or.inr p2), ← heq]
      rw [show serV lvl (.num i) ++ rest = intChars i ++ rest from rfl,
          parseNumber_round i rest hrest]
  | .str s, lvl, f + 1, rest, hlen, _ => by
    have heq : serV lvl (.str s) ++ rest = '"' :: (escString s.toList ++ '"' :: rest) := by
      show serStr s ++ rest = _
      simp [serStr]
    rw [heq, parseVal_step_str, parseStr_round s rest]
    rfl
  | .arr .enil, lvl, f + 1, rest, hlen, _ => rfl
  | .arr (.econs w ws), lvl, f + 1, rest, hlen, _ => by
    have heq : serV lvl (.arr (.econs w ws)) ++ rest =
        '[' :: ('\n' :: (serE (lvl + 1) (.econs w ws)
          ++ '\n' :: (List.replicate (4 * lvl) ' ' ++ ']' :: rest))) := by
      show ('[' :: '\n' :: (serE (lvl + 1) (.econs w ws) ++ '\n' :: (pad lvl ++ [']']))) ++ rest = _
      simp [pad]
    rw [heq, parseVal_step_arr]
    obtain ⟨Y, hY⟩ := serE_decomp (lvl + 1) w ws
    obtain ⟨c, t, hc, hcws, hcb, -⟩ := serV_head (lvl + 1) w
    have hskip : skipWs ('\n' :: (serE (lvl + 1) (.econs w ws)
        ++ '\n' :: (List.replicate (4 * lvl) ' ' ++ ']' :: rest)))
        = c :: (t ++ (Y ++ '\n' :: (List.replicate (4 * lvl) ' ' ++ ']' :: rest))) := by
      rw [skipWs_newline, hY, List.append_assoc, skipWs_pad, List.append_assoc, hc,
        List.cons_append, skipWs_cons_not hcws]
    rw [hskip]
    have hfe : (serE (lvl + 1) (.econs w ws)).length + 1 < f := by
      have h1 := hlen
      simp only [serV, List.length_cons, List.length_append, pad,
        List.length_replicate, List.length_singleton] at h1
      omega
    have key := rt_elems w ws (lvl + 1) f (4 * lvl) rest hfe
    split
    · rename_i heq2
      injection heq2 with k1 k2
      exact absurd k1 hcb
    · rw [key]
  | .obj .fnil, lvl, f + 1, rest, hlen, _ => rfl
  | .obj (.fcons n w ms), lvl, f + 1, rest, hlen, _ => by
    have heq : serV lvl (.obj (.fcons n w ms)) ++ rest =
        '\x7b' :: ('\n' :: (serF (lvl + 1) (.fcons n w ms)
          ++ '\n' :: (List.replicate (4 * lvl) ' ' ++ '\x7d' :: rest))) := by
      show ('\x7b' :: '\n' :: (serF (lvl + 1) (.fcons n w ms)
          ++ '\n' :: (pad lvl ++ ['\x7d']))) ++ rest = _
      simp [pad]
    rw [heq, parseVal_step_obj]
    obtain ⟨Z, hZ⟩ := serF_decomp (lvl + 1) n w ms
    have hskip : skipWs ('\n' :: (serF (lvl + 1) (.fcons n w ms)
        ++ '\n' :: (List.replicate (4 * lvl) ' ' ++ '\x7d' :: rest)))
        = '"' :: ((escString n.toList ++ ['"'])
            ++ (Z ++ '\n' :: (List.replicate (4 * lvl) ' ' ++ '\x7d' :: rest))) := by
      rw [skipWs_newline, hZ, List.append_assoc, skipWs_pad, List.append_assoc]
      rw [show serStr n ++ (Z ++ '\n' :: (List.replicate (4 * lvl) ' ' ++ '\x7d' :: rest))
            = '"' :: ((escString n.toList ++ ['"'])
                ++ (Z ++ '\n' :: (List.replicate (4 * lvl) ' ' ++ '\x7d' :: rest))) from rfl]
      rw [skipWs_cons_not (by decide)]
    rw [hskip]
    have hff : (serF (lvl + 1) (.fcons n w ms)).length + 1 < f := by
      have h1 := hlen
      simp only [serV, List.length_cons, List.length_append, pad,
        List.length_replicate, List.length_singleton] at h1
      omega
    have key := rt_fields n w ms (lvl + 1) f (4 * lvl) rest hff
    split
    · rename_i heq2
      injection heq2 with k1 k2
      exact absurd k1 (by decide)
    · rw [key]
termination_by v lvl fuel rest h1 h2 => sizeOf v

theorem rt_elems : ∀ (v : JVal) (vs : Elems) (lvl fuel m : Nat) (rest : List Char),
    (serE lvl (.econs v vs)).length + 1 < fuel →
    parseElems fuel
        ('\n' :: (serE lvl (.econs v vs) ++ '\n' :: (List.replicate m ' ' ++ ']' :: rest)))
      = some (.econs v vs, rest)
  | v, vs, lvl, 0, m, rest, hlen => by omega
  | v, .enil, lvl, f + 1, m, rest, hlen => by
    rw [parseElems_step]
    have hv : parseVal f ('\n' :: (serE lvl (.econs v .enil)
        ++ '\n' :: (List.replicate m ' ' ++ ']' :: rest)))
        = some (v, '\n' :: (List.replicate m ' ' ++ ']' :: rest)) := by
      have hskip : skipWs ('\n' :: (serE lvl (.econs v .enil)
          ++ '\n' :: (List.replicate m ' ' ++ ']' :: rest)))
          = skipWs (serV lvl v ++ '\n' :: (List.replicate m ' ' ++ ']' :: rest)) := by
        rw [skipWs_newline]
        rw [show serE lvl (.econs v .enil) = pad lvl ++ serV lvl v from by simp [serE]]
        rw [List.append_assoc, skipWs_pad]
      rw [parseVal_congr f hskip]
      have hfv : (serV lvl v).length < f := by
        have h1 := hlen
        simp only [serE, List.length_append, pad, List.length_replicate] at h1
        omega
      exact rt_val v lvl f _ hfv rfl
    rw [hv]
    dsimp only
    rw [show skipWs ('\n' :: (List.replicate m ' ' ++ ']' :: rest)) = ']' :: rest from by
      rw [skipWs_newline, skipWs_spaces, skipWs_cons_not (by decide)]]
    split
    · rename_i heq; injection heq with k1 k2; exact absurd k1 (by decide)
    · rename_i heq; injection heq with k1 k2; subst k2; rfl
    · rename_i hne; exact absurd rfl (hne rest)
  | v, .econs w ws, lvl, f + 1, m, rest, hlen => by
    rw [parseElems_step]
    have hv : parseVal f ('\n' :: (serE lvl (.econs v (.econs w ws))
        ++ '\n' :: (List.replicate m ' ' ++ ']' :: rest)))
        = some (v, ',' :: '\n' :: serE lvl (.econs w ws)
            ++ '\n' :: (List.replicate m ' ' ++ ']' :: rest)) := by
      have hskip : skipWs ('\n' :: (serE lvl (.econs v (.econs w ws))
          ++ '\n' :: (List.replicate m ' ' ++ ']' :: rest)))
          = skipWs (serV lvl v ++ (',' :: '\n' :: serE lvl (.econs w ws)
              ++ '\n' :: (List.replicate m ' ' ++ ']' :: rest))) := by
        rw [skipWs_newline]
        rw [show serE lvl (.econs v (.econs w ws))
              = pad lvl ++ serV lvl v ++ ',' :: '\n' :: serE lvl (.econs w ws) from by
            simp [serE]]
        rw [List.append_assoc, List.append_assoc, skipWs_pad]
      rw [parseVal_congr f hskip]
      have hfv : (serV lvl v).length < f := by
        have h1 := hlen
        simp only [serE, List.length_append, List.length_cons, pad,
          List.length_replicate] at h1
        omega
      have := rt_val v lvl f (',' :: '\n' :: serE lvl (.econs w ws)
          ++ '\n' :: (List.replicate m ' ' ++ ']' :: rest)) hfv rfl
      rw [← List.append_assoc] at this ⊢
      exact this
    rw [hv]
    dsimp only
    rw [show skipWs (',' :: '\n' :: serE lvl (.econs w ws)
          ++ '\n' :: (List.replicate m ' ' ++ ']' :: rest))
        = ',' :: ('\n' :: serE lvl (.econs w ws)
            ++ '\n' :: (List.replicate m ' ' ++ ']' :: rest)) from by
      rw [List.cons_append, skipWs_cons_not (by decide)]]
    split
    · rename_i heq
      injection heq with k1 k2
      have hfe : (serE lvl (.econs w ws)).length + 1 < f := by
        have h1 := hlen
        simp only [serE, List.length_append, List.length_cons, pad,
          List.length_replicate] at h1
        have h2 := serV_len_pos lvl v
        omega
      have key := rt_elems w ws lvl f m rest hfe
      rw [← k2]
      rw [show '\n' :: serE lvl (.econs w ws) ++ '\n' :: (List.replicate m ' ' ++ ']' :: rest)
            = '\n' :: (serE lvl (.econs w ws) ++ '\n' :: (List.replicate m ' ' ++ ']' :: rest))
          from by simp]
      rw [key]
    · rename_i heq; injection heq with k1 k2; exact absurd k1 (by decide)
    · rename_i h1 h2
      exact absurd rfl (h1 _)
termination_by v vs lvl fuel m rest h1 => sizeOf v + sizeOf vs + 1

theorem rt_fields : ∀ (n : String) (v : JVal) (ms : Fields) (lvl fuel m : Nat)
      (rest : List Char),
    (serF lvl (.fcons n v ms)).length + 1 < fuel →
    parseFields fuel
        ('\n' :: (serF lvl (.fcons n v ms) ++ '\n' :: (List.replicate m ' ' ++ '\x7d' :: rest)))
      = some (.fcons n v ms, rest)
  | n, v, ms, lvl, 0, m, rest, hlen => by omega
  | n, v, .fnil, lvl, f + 1, m, rest, hlen => by
    rw [parseFields_step]
    rw [show skipWs ('\n' :: (serF lvl (.fcons n v .fnil)
          ++ '\n' :: (List.replicate m ' ' ++ '\x7d' :: rest)))
        = '"' :: (escString n.toList ++ '"' :: (':' :: (' ' :: (serV lvl v
            ++ '\n' :: (List.replicate m ' ' ++ '\x7d' :: rest))))) from by
      rw [skipWs_newline]
      rw [show serF lvl (.fcons n v .fnil) = pad lvl ++ (serStr n ++ ':' :: ' ' :: serV lvl v)
          from by simp [serF]]
      rw [List.append_assoc, skipWs_pad]
      rw [show (serStr n ++ ':' :: ' ' :: serV lvl v)
            ++ '\n' :: (List.replicate m ' ' ++ '\x7d' :: rest)
          = '"' :: (escString n.toList ++ '"' :: (':' :: (' ' :: (serV lvl v
              ++ '\n' :: (List.replicate m ' ' ++ '\x7d' :: rest))))) from by simp [serStr]]
      rw [skipWs_cons_not (by decide)]]
    split
    · rename_i heq
      injection heq with k1 k2
      subst k2
      rw [parseStr_round n]
      dsimp only
      rw [skipWs_cons_not (by decide)]
      split
      · rename_i heq2
        injection heq2 with k3 k4
        subst k4
        have hv : parseVal f (' ' :: (serV lvl v
            ++ '\n' :: (List.replicate m ' ' ++ '\x7d' :: rest)))
            = some (v, '\n' :: (List.replicate m ' ' ++ '\x7d' :: rest)) := by
          have hskip : skipWs (' ' :: (serV lvl v
              ++ '\n' :: (List.replicate m ' ' ++ '\x7d' :: rest)))
              = skipWs (serV lvl v ++ '\n' :: (List.replicate m ' ' ++ '\x7d' :: rest)) :=
            skipWs_cons_ws (by decide) _
          rw [parseVal_congr f hskip]
          have hfv : (serV lvl v).length < f := by
            have h1 := hlen
            simp only [serF, List.length_append, List.length_cons, pad,
              List.length_replicate] at h1
            omega
          exact rt_val v lvl f _ hfv rfl
        rw [hv]
        dsimp only
        rw [show skipWs ('\n' :: (List.replicate m ' ' ++ '\x7d' :: rest))
            = '\x7d' :: rest from by
          rw [skipWs_newline, skipWs_spaces, skipWs_cons_not (by decide)]]
        split
        · rename_i heq3; injection heq3 with k5 k6; exact absurd k5 (by decide)
        · rename_i heq3
          injection heq3 with k5 k6
          subst k6
          rfl
        · rename_i hne; exact absurd rfl (hne rest)
      · rename_i h1
        exact absurd rfl (h1 _)
    · rename_i h1
      exact absurd rfl (h1 _)
  | n, v, .fcons n2 w ms2, lvl, f + 1, m, rest, hlen => by
    rw [parseFields_step]
    rw [show skipWs ('\n' :: (serF lvl (.fcons n v (.fcons n2 w ms2))
          ++ '\n' :: (List.replicate m ' ' ++ '\x7d' :: rest)))
        = '"' :: (escString n.toList ++ '"' :: (':' :: (' ' :: (serV lvl v
            ++ ',' :: ('\n' :: (serF lvl (.fcons n2 w ms2)
              ++ '\n' :: (List.replicate m ' ' ++ '\x7d' :: rest))))))) from by
      rw [skipWs_newline]
      rw [show serF lvl (.fcons n v (.fcons n2 w ms2))
            = pad lvl ++ ((serStr n ++ ':' :: ' ' :: serV lvl v)
                ++ ',' :: '\n' :: serF lvl (.fcons n2 w ms2)) from by simp [serF]]
      rw [List.append_assoc, skipWs_pad]
      rw [show ((serStr n ++ ':' :: ' ' :: serV lvl v)
              ++ ',' :: '\n' :: serF lvl (.fcons n2 w ms2))
            ++ '\n' :: (List.replicate m ' ' ++ '\x7d' :: rest)
          = '"' :: (escString n.toList ++ '"' :: (':' :: (' ' :: (serV lvl v
              ++ ',' :: ('\n' :: (serF lvl (.fcons n2 w ms2)
                ++ '\n' :: (List.replicate m ' ' ++ '\x7d' :: rest)))))))
          from by simp [serStr]]
      rw [skipWs_cons_not (by decide)]]
    split
    · rename_i heq
      injection heq with k1 k2
      subst k2
      rw [parseStr_round n]
      dsimp only
      rw [skipWs_cons_not (by decide)]
      split
      · rename_i heq2
        injection heq2 with k3 k4
        subst k4
        have hv : parseVal f (' ' :: (serV lvl v
            ++ ',' :: ('\n' :: (serF lvl (.fcons n2 w ms2)
              ++ '\n' :: (List.replicate m ' ' ++ '\x7d' :: rest)))))
            = some (v, ',' :: ('\n' :: (serF lvl (.fcons n2 w ms2)
                ++ '\n' :: (List.replicate m ' ' ++ '\x7d' :: rest)))) := by
          have hskip : skipWs (' ' :: (serV lvl v
              ++ ',' :: ('\n' :: (serF lvl (.fcons n2 w ms2)
                ++ '\n' :: (List.replicate m ' ' ++ '\x7d' :: rest)))))
              = skipWs (serV lvl v ++ ',' :: ('\n' :: (serF lvl (.fcons n2 w ms2)
                  ++ '\n' :: (List.replicate m ' ' ++ '\x7d' :: rest)))) :=
            skipWs_cons_ws (by decide) _
          rw [parseVal_congr f hskip]
          have hfv : (serV lvl v).length < f := by
            have h1 := hlen
            simp only [serF, List.length_append, List.length_cons, pad,
              List.length_replicate] at h1
            omega
          exact rt_val v lvl f _ hfv rfl
        rw [hv]
        dsimp only
        rw [skipWs_cons_not (by decide)]
        split
        · rename_i heq3
          injection heq3 with k5 k6
          subst k6
          have hff : (serF lvl (.fcons n2 w ms2)).length + 1 < f := by
            have h1 := hlen
            simp only [serF, List.length_append, List.length_cons, pad,
              List.length_replicate] at h1
            omega
          have key := rt_fields n2 w ms2 lvl f m rest hff
          rw [key]
          rfl
        · rename_i heq3; injection heq3 with k5 k6; exact absurd k5 (by decide)
        · rename_i h1 h2
          exact absurd rfl (h1 _)
      · rename_i h1
        exact absurd rfl (h1 _)
    · rename_i h1
      exact absurd rfl (h1 _)
termination_by n v ms lvl fuel m rest h1 => sizeOf v + sizeOf ms + 1

end

/-- Parsing back the exact text `json.dump(v, indent=4)` produced recovers `v`:
    the dump is parsed in full, with no trailing garbage left over. -/
theorem loads_dumps (v : JVal) : loads (dumps v) = some v := by
  unfold loads
  have h := rt_val v 0 ((serV 0 v).length + 1) [] (Nat.lt_succ_self _) rfl
  rw [List.append_nil] at h
  rw [show (dumps v).toList = serV 0 v from rfl,
      show (dumps v).length = (serV 0 v).length from rfl, h]
  rfl

/-- **C5**: saving the current structure with `save_json` and then loading the
    saved file's text back with `load_json` (in any editor state) restores
    exactly the structure that was saved: `json.dump(..., indent=4)` followed
    by `json.load` is the identity on structures. -/
theorem claim5_save_load_roundtrip (st st2 : DesignerState) (p q : String)
    (path contents : String)
    (hsave : (save_json st (some p)).2 = some (path, contents)) :
    (load_json st2 (some (q, contents))).1.project_structure = st.project_structure := by
  have h0 : (p, dumps st.project_structure) = (path, contents) := by
    unfold save_json at hsave
    exact Option.some.inj hsave
  injection h0 with hp hc
  rw [← hc]
  unfold load_json
  dsimp only
  rw [loads_dumps]

theorem claim5_save_load_roundtrip_witness :
    (save_json ⟨.obj (.fcons "a" (.str "hi") .fnil), "Ready"⟩ (some "out.json")).2
        = some ("out.json", dumps (.obj (.fcons "a" (.str "hi") .fnil))) ∧
    (load_json ⟨.null, ""⟩ (some ("in.json",
        dumps (.obj (.fcons "a" (.str "hi") .fnil))))).1.project_structure
      = .obj (.fcons "a" (.str "hi") .fnil) :=
  ⟨rfl, claim5_save_load_roundtrip ⟨.obj (.fcons "a" (.str "hi") .fnil), "Ready"⟩
     ⟨.null, ""⟩ "out.json" "in.json" "out.json"
     (dumps (.obj (.fcons "a" (.str "hi") .fnil))) rfl⟩

end ProjectBuilder
